import Mathlib

/-!
Verification development for the f-tailwind compiler core
(DSL parser `src/parser/style-tree.ts`, directive resolver and CSS selector
matching engine `src/transform/forward.ts`).

The TypeScript sources are shallowly embedded: strings are `String`/`List Char`,
JavaScript numbers are `Int`/`Nat` (JS `%` on integers is `Int.tmod`), in-place
mutation becomes explicit state passing, and `console.warn` becomes an
accumulated list of warning tags.  Recursions whose termination is not
structural in the source carry an explicit fuel argument; `none` means the
fuel ran out.
-/

set_option maxRecDepth 2000

namespace FTailwind

/-! ## Character/string primitives

All string manipulation is done on `List Char` (`String.data`), mirroring
JavaScript string operations index by index.  JS `\s` is modelled by the
ASCII whitespace characters (the sources only ever meet ASCII whitespace).
-/

def bslash : Char := Char.ofNat 92   -- backslash
def quoteD : Char := Char.ofNat 34   -- double quote
def quoteS : Char := Char.ofNat 39   -- single quote
def lbrace : Char := Char.ofNat 123  -- opening curly brace
def rbrace : Char := Char.ofNat 125  -- closing curly brace

def jsIsSpace (c : Char) : Bool :=
  c == ' ' || c == '\t' || c == '\n' || c == '\r' || c == Char.ofNat 11 || c == Char.ofNat 12

/-- JS `String.prototype.trim` on a char list. -/
def trimCL (s : List Char) : List Char :=
  ((s.dropWhile jsIsSpace).reverse.dropWhile jsIsSpace).reverse

/-- JS `String.prototype.toLowerCase` (ASCII relevant range). -/
def lowerCL (s : List Char) : List Char := s.map Char.toLower

/-- JS `String.prototype.startsWith` on char lists. -/
def startsWithCL : List Char → List Char → Bool
  | _, [] => true
  | [], _ :: _ => false
  | c :: cs, p :: ps => c == p && startsWithCL cs ps

/-- JS `String.prototype.endsWith` on char lists. -/
def endsWithCL (s p : List Char) : Bool := startsWithCL s.reverse p.reverse

/-- JS `String.prototype.includes` on char lists. -/
def includesCL (s p : List Char) : Bool :=
  match s with
  | [] => p == []
  | _ :: rest => startsWithCL s p || includesCL rest p

/-- Value of a decimal digit string (no sign). -/
def natOfDigits (s : List Char) : Nat :=
  s.foldl (fun acc c => acc * 10 + (c.toNat - '0'.toNat)) 0

/-- JS `parseInt(s, 10)` restricted to the well-formed `[+-]?\d+` inputs
the sources feed it. -/
def parseIntDec (s : List Char) : Int :=
  match s with
  | '-' :: r => -(natOfDigits r : Int)
  | '+' :: r => (natOfDigits r : Int)
  | _ => (natOfDigits s : Int)

/-- Test for the regex `^-?\d+$`. -/
def isIntLit (s : List Char) : Bool :=
  match s with
  | '-' :: r => !r.isEmpty && r.all Char.isDigit
  | _ => !s.isEmpty && s.all Char.isDigit

/-! ## The An+B evaluator (`matchesAnPlusB`, forward.ts lines 835-858) -/

/-- Matcher for the regex `^(-?\d*)n\s*([+-]\s*\d+)?$`: returns the two
capture groups.  The regex is deterministic (no backtracking can succeed
where greedy matching fails, because the character classes of adjacent
pieces are disjoint). -/
def anbMatch (s : List Char) : Option (List Char × Option (List Char)) :=
  let (neg, rest) := match s with
    | '-' :: r => (['-'], r)
    | _ => (([] : List Char), s)
  let digs := rest.takeWhile Char.isDigit
  let rest2 := rest.dropWhile Char.isDigit
  match rest2 with
  | 'n' :: rest3 =>
    let rest4 := rest3.dropWhile jsIsSpace
    match rest4 with
    | [] => some (neg ++ digs, none)
    | c :: rest5 =>
      if c == '+' || c == '-' then
        let ws := rest5.takeWhile jsIsSpace
        let rest6 := rest5.dropWhile jsIsSpace
        let digs2 := rest6.takeWhile Char.isDigit
        let rest7 := rest6.dropWhile Char.isDigit
        if !digs2.isEmpty && rest7.isEmpty then
          some (neg ++ digs, some (c :: (ws ++ digs2)))
        else none
      else none
  | _ => none

/-- The normalisation the source applies first: `expr.trim().toLowerCase()`. -/
def anbNormalize (expr : String) : List Char := lowerCL (trimCL expr.data)

/-- `matchesAnPlusB(expr, pos)` from forward.ts lines 835-858.
Supports `odd`, `even`, an integer literal, and `An+B` forms; an
unparsable argument yields `true`.  JS `%` is `Int.tmod`. -/
def matchesAnPlusB (expr : String) (pos : Int) : Bool :=
  let s := anbNormalize expr
  if s = "odd".data then pos.tmod 2 == 1
  else if s = "even".data then pos.tmod 2 == 0
  else if isIntLit s then pos == parseIntDec s
  else
    match anbMatch s with
    | none => true
    | some (g1, g2) =>
      let a : Int :=
        if g1 = [] || g1 = ['+'] then 1
        else if g1 = ['-'] then -1
        else parseIntDec g1
      let b : Int :=
        match g2 with
        | none => 0
        | some g => parseIntDec (g.filter (fun c => !jsIsSpace c))
      if a == 0 then pos == b
      else
        let remainder := pos - b
        if remainder == 0 then true
        else if a > 0 then decide (remainder > 0) && (remainder.tmod a == 0)
        else decide (remainder ≤ 0) && (remainder.tmod a == 0)

/-! ## Template tree model (`TemplateNode`, src/parser/types.ts)

Source-offset fields (`startOffset`, `classAttr*`, …) are omitted: the
matching engine never reads them.  The `parent` back-reference is realised
by a cursor (node plus the chain of ancestor frames); JS `indexOf`, which
compares by object identity, is modelled by the cursor's position, which
identifies a node uniquely within one tree. -/

inductive AttrVal where
  | str (v : String)
  | boolT
deriving Repr, DecidableEq

structure Conditional where
  chainId : Nat
  branchIdx : Nat
deriving Repr, DecidableEq

inductive TNode where
  | mk (tag : String) (idAttr : Option String) (classes : List String)
       (attributes : List (String × AttrVal)) (conditional : Option Conditional)
       (children : List TNode)
deriving Repr

def TNode.tag : TNode → String
  | .mk t _ _ _ _ _ => t

def TNode.idAttr : TNode → Option String
  | .mk _ i _ _ _ _ => i

def TNode.classes : TNode → List String
  | .mk _ _ c _ _ _ => c

def TNode.attributes : TNode → List (String × AttrVal)
  | .mk _ _ _ a _ _ => a

def TNode.conditional : TNode → Option Conditional
  | .mk _ _ _ _ k _ => k

def TNode.children : TNode → List TNode
  | .mk _ _ _ _ _ ch => ch

/-- `attrName in el.attributes` / `el.attributes[attrName]`. -/
def attrLookup (n : TNode) (name : String) : Option AttrVal :=
  (n.attributes.find? (fun p => p.1 == name)).map (·.2)

/-- A template node together with its position in the tree: the raw left and
right sibling lists and the parent cursor.  `frame = none` for root-level
nodes (whose JS `parent` is `undefined`). -/
inductive Cursor where
  | mk (node : TNode) (frame : Option (List TNode × List TNode × Cursor))
deriving Repr

def Cursor.node : Cursor → TNode
  | .mk n _ => n

def Cursor.frame : Cursor → Option (List TNode × List TNode × Cursor)
  | .mk _ fr => fr

def Cursor.parent : Cursor → Option Cursor
  | .mk _ none => none
  | .mk _ (some (_, _, p)) => some p

/-- Cursors for a sibling run: `pre` are the raw siblings already passed. -/
def siblingCursorsAux (p : Cursor) : List TNode → List TNode → List Cursor
  | _, [] => []
  | pre, n :: rest => Cursor.mk n (some (pre, rest, p)) :: siblingCursorsAux p (pre ++ [n]) rest

/-- The cursors of `c`'s children (the children's `parent` is `c`). -/
def childCursors (c : Cursor) : List Cursor :=
  siblingCursorsAux c [] c.node.children

/-- Cursors for root-level template nodes (`parent` is `undefined`). -/
def rootCursors (roots : List TNode) : List Cursor :=
  roots.map (fun n => Cursor.mk n none)

-- Structural equality on nodes; used to realise JS object identity for
-- cursors (two cursors of one tree are the same object iff they sit at the
-- same position, i.e. are structurally equal).
mutual
def tnodeBeq : TNode → TNode → Bool
  | .mk t1 i1 c1 a1 k1 ch1, .mk t2 i2 c2 a2 k2 ch2 =>
    t1 == t2 && i1 == i2 && c1 == c2 && a1 == a2 && k1 == k2 && tnodeListBeq ch1 ch2
def tnodeListBeq : List TNode → List TNode → Bool
  | [], [] => true
  | a :: as', b :: bs => tnodeBeq a b && tnodeListBeq as' bs
  | _, _ => false
end

def cursorBeq : Cursor → Cursor → Bool
  | .mk n1 none, .mk n2 none => tnodeBeq n1 n2
  | .mk n1 (some (l1, r1, p1)), .mk n2 (some (l2, r2, p2)) =>
    tnodeBeq n1 n2 && tnodeListBeq l1 l2 && tnodeListBeq r1 r2 && cursorBeq p1 p2
  | _, _ => false

def containsCursor (l : List Cursor) (c : Cursor) : Bool :=
  l.any (fun x => cursorBeq x c)

/-! ## Conditional sibling model (forward.ts lines 733-740 and 1067-1070) -/

/-- `isConditionalAlternative` (forward.ts line 1067). -/
def isConditionalAlternative (a b : TNode) : Bool :=
  match a.conditional, b.conditional with
  | some ca, some cb => ca.chainId == cb.chainId && ca.branchIdx != cb.branchIdx
  | _, _ => false

/-- The filter predicate inlined in `getRuntimeSiblings` (forward.ts 735-739):
keep `sib` iff `!el.conditional || !sib.conditional || chainId differs ||
branchIdx equal`. -/
def keepRuntimeSibling (el sib : TNode) : Bool :=
  match el.conditional, sib.conditional with
  | some ec, some sc => ec.chainId != sc.chainId || ec.branchIdx == sc.branchIdx
  | _, _ => true

/-- `getRuntimeSiblings` (forward.ts 733-740): `[el]` for parentless nodes,
otherwise `el.parent.children` filtered by `keepRuntimeSibling`. -/
def getRuntimeSiblings (c : Cursor) : List TNode :=
  match c.frame with
  | none => [c.node]
  | some (l, r, _) => (l ++ c.node :: r).filter (keepRuntimeSibling c.node)

/-- `siblings.indexOf(el)` on the runtime sibling list.  JS `indexOf` uses
object identity; `el` itself is always kept by the filter, so its identity
position equals the number of kept raw left siblings. -/
def runtimeIndex (c : Cursor) : Nat :=
  match c.frame with
  | none => 0
  | some (l, _, _) => (l.filter (keepRuntimeSibling c.node)).length

/-! ## Selector AST (the external postcss-selector-parser shapes)

`SelSel` is one comma-alternative (postcss `Selector`); it carries its source
text, which `toString()` reproduces and `extractPseudoArg` consumes. -/

mutual
inductive SelNode where
  | universal
  | tag (value : String)
  | cls (value : String)
  | idSel (value : String)
  | nesting
  | combinator (value : String)
  | attr (attrName : String) (operator : Option String) (value : Option String)
  | pseudo (value : String) (nodes : List SelSel)
inductive SelSel where
  | mk (nodes : List SelNode) (srcText : String)
end

def SelSel.nodes : SelSel → List SelNode
  | .mk ns _ => ns

structure Segment where
  combinator : String
  parts : List SelNode

def strTrim (s : String) : String := ⟨trimCL s.data⟩

/-- `splitIntoCombinatorSegments` (forward.ts 557-582).  The initial
combinator is the literal space; a combinator node contributes its trimmed
value (so a descendant-space combinator becomes the empty string); `nesting`
nodes are skipped. -/
def splitSegsAux : List SelNode → String → List SelNode → List Segment
  | [], comb, parts => if parts.isEmpty then [] else [⟨comb, parts⟩]
  | n :: rest, comb, parts =>
    match n with
    | .combinator v =>
      (if parts.isEmpty then [] else [Segment.mk comb parts]) ++
        splitSegsAux rest (strTrim v) []
    | .nesting => splitSegsAux rest comb parts
    | _ => splitSegsAux rest comb (parts ++ [n])

def splitIntoCombinatorSegments (nodes : List SelNode) : List Segment :=
  splitSegsAux nodes " " []

/-! ## Structural pseudo-classes (forward.ts 696-858) -/

/-- `RUNTIME_PSEUDOS` (forward.ts 696-727). -/
def RUNTIME_PSEUDOS : List String :=
  [":hover", ":focus", ":active", ":visited", ":link", ":focus-within",
   ":focus-visible", ":checked", ":disabled", ":enabled", ":required",
   ":optional", ":valid", ":invalid", ":in-range", ":out-of-range",
   ":placeholder-shown", ":autofill", ":read-only", ":read-write",
   ":target", ":scope", ":defined", ":fullscreen", ":modal",
   ":picture-in-picture", ":any-link", ":local-link", ":default",
   ":indeterminate"]

/-- `extractPseudoArg` (forward.ts 821-829): the trimmed source text of the
first inner selector, if any. -/
def extractPseudoArg (pnodes : List SelSel) : Option String :=
  match pnodes with
  | [] => none
  | .mk _ txt :: _ => some (strTrim txt)

/-- `matchStructuralPseudo` (forward.ts 747-816).  `pool.indexOf(el)` for the
of-type pools is identity-based in JS and equals the number of same-tag
siblings strictly before `el`'s runtime position. -/
def matchStructuralPseudo (c : Cursor) (value : String) (pnodes : List SelSel) : Bool :=
  if RUNTIME_PSEUDOS.contains value then true
  else
    let el := c.node
    let siblings := getRuntimeSiblings c
    let index := runtimeIndex c
    if value == ":first-child" then index == 0
    else if value == ":last-child" then index == siblings.length - 1
    else if value == ":only-child" then siblings.length == 1
    else if value == ":first-of-type" then
      siblings.findIdx (fun s => s.tag == el.tag) == index
    else if value == ":last-of-type" then
      siblings.reverse.findIdx (fun s => s.tag == el.tag) == siblings.length - 1 - index
    else if value == ":only-of-type" then
      (siblings.filter (fun s => s.tag == el.tag)).length == 1
    else if value == ":root" then c.frame.isNone
    else if value == ":empty" then el.children.isEmpty
    else if value == ":nth-child" || value == ":nth-last-child" ||
            value == ":nth-of-type" || value == ":nth-last-of-type" then
      match extractPseudoArg pnodes with
      | none => true
      | some arg =>
        let ofType := value == ":nth-of-type" || value == ":nth-last-of-type"
        let poolLen := if ofType then (siblings.filter (fun s => s.tag == el.tag)).length
                       else siblings.length
        let poolIdx := if ofType then ((siblings.take index).filter (fun s => s.tag == el.tag)).length
                       else index
        let pos : Int :=
          if value == ":nth-last-child" || value == ":nth-last-of-type" then
            (poolLen : Int) - (poolIdx : Int)
          else (poolIdx : Int) + 1
        matchesAnPlusB arg pos
    else true

/-! ## Runtime sibling cursors (identity-preserving sibling navigation) -/

/-- Cursors of the raw siblings to the right of `c`. -/
def rightSiblingCursors (c : Cursor) : List Cursor :=
  match c with
  | .mk _ none => []
  | .mk n (some (l, r, p)) => siblingCursorsAux p (l ++ [n]) r

/-- Cursors of the raw siblings to the left of `c`, in document order. -/
def leftSiblingCursors (c : Cursor) : List Cursor :=
  match c with
  | .mk _ none => []
  | .mk n (some (l, r, p)) => (siblingCursorsAux p [] (l ++ n :: r)).take l.length

/-- `siblings[idx+1]` of the runtime sibling list: first kept right sibling. -/
def runtimeNextSibling (c : Cursor) : Option Cursor :=
  (rightSiblingCursors c).find? (fun s => keepRuntimeSibling c.node s.node)

/-- `siblings.slice(idx+1)` of the runtime sibling list. -/
def runtimeFollowingSiblings (c : Cursor) : List Cursor :=
  (rightSiblingCursors c).filter (fun s => keepRuntimeSibling c.node s.node)

/-- The runtime sibling list before `el`, in document order. -/
def runtimePrecedingSiblings (c : Cursor) : List Cursor :=
  (leftSiblingCursors c).filter (fun s => keepRuntimeSibling c.node s.node)

/-- `siblings[idx-1]` of the runtime sibling list (`none` when `idx ≤ 0`). -/
def runtimePrevSibling (c : Cursor) : Option Cursor :=
  (runtimePrecedingSiblings c).getLast?

/-- JS `elVal.split(/\s+/)`: maximal whitespace runs separate the pieces; a
leading (resp. trailing) run contributes a leading (resp. trailing) empty
piece; the empty string splits to one empty piece. -/
def splitOnSpaceSingle : List Char → List (List Char)
  | [] => [[]]
  | c :: rest =>
    if jsIsSpace c then [] :: splitOnSpaceSingle rest
    else
      match splitOnSpaceSingle rest with
      | [] => [[c]]
      | w :: ws => (c :: w) :: ws

def jsSplitWs (s : List Char) : List (List Char) :=
  match s with
  | [] => [[]]
  | _ =>
    (if jsIsSpace (s.headD 'x') then [([] : List Char)] else []) ++
      ((splitOnSpaceSingle s).filter (fun w => !w.isEmpty)) ++
      (if jsIsSpace (s.getLastD 'x') then [([] : List Char)] else [])

/-! ## The selector matching engine (forward.ts 589-1128)

All mutually recursive functions carry an explicit fuel that every call
decrements; on exhausted fuel the boolean matchers yield `false` and the
list matchers yield `[]`.  The TypeScript recursion terminates on selector
structure and tree depth, so any sufficiently large fuel computes the same
answer; claims either evaluate at concrete fuel or hold for every fuel. -/

mutual

/-- `matchesCompound` (forward.ts 589-686): AND over all compound parts. -/
def matchesCompound : Nat → Cursor → List SelNode → Bool
  | 0, _, _ => false
  | _+1, _, [] => true
  | f+1, c, part :: rest =>
    let el := c.node
    let ok : Bool :=
      match part with
      | .universal => true
      | .tag v => el.tag == v
      | .cls v => el.classes.contains v
      | .idSel v => el.idAttr == some v
      | .attr aName aOp aVal =>
        match attrLookup el aName with
        | none => false
        | some stored =>
          match aOp, aVal with
          | some op, some v =>
            -- JS `if (attrOp && attrVal !== undefined)`: an empty operator
            -- string is falsy, so it degrades to a presence check.
            if op == "" then true
            else
              match stored with
              | .boolT => false   -- boolean attr can't match a value
              | .str elVal =>
                if op == "=" then elVal == v
                else if op == "^=" then startsWithCL elVal.data v.data
                else if op == "$=" then endsWithCL elVal.data v.data
                else if op == "*=" then includesCL elVal.data v.data
                else if op == "~=" then (jsSplitWs elVal.data).contains v.data
                else if op == "|=" then elVal == v || startsWithCL elVal.data (v.data ++ ['-'])
                else true
          | _, _ => true
      | .pseudo value pnodes =>
        if value == ":has" then
          pnodes.any (fun inner => matchesHasSelector f c inner.nodes)
        else if value == ":not" then
          pnodes.all (fun inner => !elementMatchesComplexSelector f c inner.nodes)
        else if value == ":is" || value == ":where" then
          pnodes.any (fun inner => elementMatchesComplexSelector f c inner.nodes)
        else matchStructuralPseudo c value pnodes
      | _ => true   -- combinator/nesting inside a compound: skipped
    ok && matchesCompound f c rest

/-- `matchesHasSelector` (forward.ts 873-923): forward evaluation of a
`:has()` inner selector from the subject node. -/
def matchesHasSelector : Nat → Cursor → List SelNode → Bool
  | 0, _, _ => false
  | f+1, c, nodes =>
    match splitIntoCombinatorSegments nodes with
    | [] => false
    | first :: restSegs =>
      let current : List Cursor :=
        if first.combinator == ">" then
          (childCursors c).filter (fun ch => matchesCompound f ch first.parts)
        else if first.combinator == "+" then
          match runtimeNextSibling c with
          | some nextC => if matchesCompound f nextC first.parts then [nextC] else []
          | none => []
        else if first.combinator == "~" then
          (runtimeFollowingSiblings c).filter (fun s => matchesCompound f s first.parts)
        else
          findDescendantsMatching f (childCursors c) first.parts
      !(chainSegments f current restSegs).isEmpty

/-- The shared remaining-segments loop (forward.ts 522-541, duplicated
verbatim at 901-920). -/
def chainSegments : Nat → List Cursor → List Segment → List Cursor
  | 0, _, _ => []
  | _+1, current, [] => current
  | f+1, current, seg :: rest =>
    let next : List Cursor :=
      if seg.combinator == ">" then
        current.flatMap (fun el => (childCursors el).filter (fun ch => matchesCompound f ch seg.parts))
      else if seg.combinator == "+" then
        matchAdjViaParentAux f current seg.parts []
      else if seg.combinator == "~" then
        matchGenViaParentAux f current seg.parts []
      else
        current.flatMap (fun el => findDescendantsMatching f (childCursors el) seg.parts)
    chainSegments f next rest

/-- `findDescendantsMatching` (forward.ts 1005-1012). -/
def findDescendantsMatching : Nat → List Cursor → List SelNode → List Cursor
  | 0, _, _ => []
  | _+1, [], _ => []
  | f+1, c :: rest, parts =>
    (if matchesCompound f c parts then [c] else []) ++
      findDescendantsMatching f (childCursors c) parts ++
      findDescendantsMatching f rest parts

/-- The per-anchor scan of `matchAdjacentSiblingViaParent` (forward.ts
1089-1097): first raw right sibling that is not a conditional alternative;
test it and stop. -/
def adjacentScan : Nat → TNode → Cursor → List TNode → List TNode → List SelNode → Option Cursor
  | 0, _, _, _, _, _ => none
  | _+1, _, _, _, [], _ => none
  | f+1, anchorN, p, pre, r :: rest, parts =>
    if isConditionalAlternative anchorN r then
      adjacentScan f anchorN p (pre ++ [r]) rest parts
    else
      let c := Cursor.mk r (some (pre, rest, p))
      if matchesCompound f c parts then some c else none

/-- `matchAdjacentSiblingViaParent` (forward.ts 1079-1101), with the `seen`
set realised as membership in the accumulated results. -/
def matchAdjViaParentAux : Nat → List Cursor → List SelNode → List Cursor → List Cursor
  | 0, _, _, acc => acc
  | _+1, [], _, acc => acc
  | f+1, a :: rest, parts, acc =>
    let hit : Option Cursor :=
      match a with
      | .mk _ none => none   -- anchor.parent undefined: empty sibling list
      | .mk n (some (l, r, p)) => adjacentScan f n p (l ++ [n]) r parts
    let acc2 :=
      match hit with
      | none => acc
      | some c => if containsCursor acc c then acc else acc ++ [c]
    matchAdjViaParentAux f rest parts acc2

/-- The per-anchor scan of `matchGeneralSiblingViaParent` (forward.ts
1118-1124): every following raw sibling that is not a conditional
alternative is tested; `seen` dedups across anchors. -/
def generalScan : Nat → TNode → Cursor → List TNode → List TNode → List SelNode → List Cursor → List Cursor
  | 0, _, _, _, _, _, acc => acc
  | _+1, _, _, _, [], _, acc => acc
  | f+1, anchorN, p, pre, r :: rest, parts, acc =>
    let acc2 :=
      if isConditionalAlternative anchorN r then acc
      else
        let c := Cursor.mk r (some (pre, rest, p))
        if matchesCompound f c parts && !containsCursor acc c then acc ++ [c] else acc
    generalScan f anchorN p (pre ++ [r]) rest parts acc2

/-- `matchGeneralSiblingViaParent` (forward.ts 1109-1128). -/
def matchGenViaParentAux : Nat → List Cursor → List SelNode → List Cursor → List Cursor
  | 0, _, _, acc => acc
  | _+1, [], _, acc => acc
  | f+1, a :: rest, parts, acc =>
    let acc2 :=
      match a with
      | .mk _ none => acc
      | .mk n (some (l, r, p)) => generalScan f n p (l ++ [n]) r parts acc
    matchGenViaParentAux f rest parts acc2

/-- `elementMatchesComplexSelector` (forward.ts 937-947). -/
def elementMatchesComplexSelector : Nat → Cursor → List SelNode → Bool
  | 0, _, _ => false
  | f+1, c, nodes =>
    match splitIntoCombinatorSegments nodes with
    | [] => false
    | seg :: restSegs =>
      let segs := seg :: restSegs
      let lastSeg := segs.getLastD ⟨" ", []⟩
      matchesCompound f c lastSeg.parts &&
        (segs.length == 1 || matchBackwards f c segs (segs.length - 1))

/-- `matchBackwards` (forward.ts 953-1000). -/
def matchBackwards : Nat → Cursor → List Segment → Nat → Bool
  | 0, _, _, _ => false
  | f+1, c, segments, segIdx =>
    if segIdx == 0 then true
    else
      let comb := (segments.getD segIdx ⟨" ", []⟩).combinator
      let prevParts := (segments.getD (segIdx - 1) ⟨" ", []⟩).parts
      if comb == ">" then
        match c.parent with
        | none => false
        | some p => matchesCompound f p prevParts && matchBackwards f p segments (segIdx - 1)
      else if comb == " " || comb == "" then
        walkAncestors f c.parent segments segIdx prevParts
      else if comb == "+" then
        match runtimePrevSibling c with
        | none => false   -- idx ≤ 0
        | some prev => matchesCompound f prev prevParts && matchBackwards f prev segments (segIdx - 1)
      else if comb == "~" then
        siblingBackSearch f ((runtimePrecedingSiblings c).reverse) segments segIdx prevParts
      else false

/-- The ancestor walk of the descendant case of `matchBackwards`
(forward.ts 965-975). -/
def walkAncestors : Nat → Option Cursor → List Segment → Nat → List SelNode → Bool
  | 0, _, _, _, _ => false
  | _+1, none, _, _, _ => false
  | f+1, some a, segments, segIdx, prevParts =>
    (matchesCompound f a prevParts && matchBackwards f a segments (segIdx - 1)) ||
      walkAncestors f a.parent segments segIdx prevParts

/-- The preceding-sibling loop of the `~` case of `matchBackwards`
(forward.ts 986-995); the cursors arrive latest-first. -/
def siblingBackSearch : Nat → List Cursor → List Segment → Nat → List SelNode → Bool
  | 0, _, _, _, _ => false
  | _+1, [], _, _, _ => false
  | f+1, s :: rest, segments, segIdx, prevParts =>
    (matchesCompound f s prevParts && matchBackwards f s segments (segIdx - 1)) ||
      siblingBackSearch f rest segments segIdx prevParts

end

/-- `matchAdjacentSiblingViaParent` entry point. -/
def matchAdjacentSiblingViaParent (f : Nat) (anchors : List Cursor) (parts : List SelNode) : List Cursor :=
  matchAdjViaParentAux f anchors parts []

/-- `matchGeneralSiblingViaParent` entry point. -/
def matchGeneralSiblingViaParent (f : Nat) (anchors : List Cursor) (parts : List SelNode) : List Cursor :=
  matchGenViaParentAux f anchors parts []

/-- `matchAdjacentSibling` (forward.ts 1021-1036): with anchors, the sibling
immediately after each anchor (anchor located by identity) is tested; with
no anchors the result is empty. -/
def matchAdjacentSibling (f : Nat) (siblings : List Cursor) (anchors : List Cursor) (parts : List SelNode) : List Cursor :=
  match anchors with
  | [] => []
  | a :: rest =>
    let idx := siblings.findIdx (fun s => cursorBeq s a)
    let hit : List Cursor :=
      if idx + 1 < siblings.length then
        match siblings.getD (idx + 1) a with
        | next => if matchesCompound f next parts then [next] else []
      else []
    hit ++ matchAdjacentSibling f siblings rest parts

/-- The inner loop of `matchGeneralSibling` (forward.ts 1050-1055). -/
def generalSiblingCollect (f : Nat) (parts : List SelNode) : List Cursor → List Cursor → List Cursor
  | [], acc => acc
  | s :: rest, acc =>
    let acc2 := if matchesCompound f s parts && !containsCursor acc s then acc ++ [s] else acc
    generalSiblingCollect f parts rest acc2

/-- `matchGeneralSibling` (forward.ts 1043-1060). -/
def matchGeneralSiblingAux (f : Nat) (siblings : List Cursor) (parts : List SelNode) : List Cursor → List Cursor → List Cursor
  | [], acc => acc
  | a :: rest, acc =>
    let idx := siblings.findIdx (fun s => cursorBeq s a)
    let acc2 :=
      if idx < siblings.length then
        generalSiblingCollect f parts (siblings.drop (idx + 1)) acc
      else acc
    matchGeneralSiblingAux f siblings parts rest acc2

def matchGeneralSibling (f : Nat) (siblings : List Cursor) (anchors : List Cursor) (parts : List SelNode) : List Cursor :=
  matchGeneralSiblingAux f siblings parts anchors []

/-- The check `nodes.length === 1 && nodes[0].type === 'nesting'`
(forward.ts 498). -/
def isSoleNesting : List SelNode → Bool
  | [SelNode.nesting] => true
  | _ => false

/-- `matchSelectorPart` (forward.ts 492-544): one comma-alternative applied
to a scope.  A sole `&` returns `parentMatched || scopeElements`; otherwise
the first combinator segment seeds the candidate set and `chainSegments`
narrows it. -/
def matchSelectorPart (f : Nat) (selNodes : List SelNode) (scopeElements : List Cursor)
    (parentMatched : Option (List Cursor)) : List Cursor :=
  if isSoleNesting selNodes then parentMatched.getD scopeElements
  else
    match splitIntoCombinatorSegments selNodes with
    | [] => []
    | first :: restSegs =>
      let current : List Cursor :=
        if first.combinator == ">" then
          scopeElements.filter (fun el => matchesCompound f el first.parts)
        else if first.combinator == "+" then
          matchAdjacentSibling f scopeElements [] first.parts
        else if first.combinator == "~" then
          matchGeneralSibling f scopeElements [] first.parts
        else
          findDescendantsMatching f scopeElements first.parts
      chainSegments f current restSegs

/-- `matchSelector` (forward.ts 464-481) after the external selector parse:
union over comma-alternatives, first-match order, de-duplicated. -/
def matchSelectorList (f : Nat) (alts : List SelSel) (scopeElements : List Cursor)
    (parentMatched : Option (List Cursor)) : List Cursor :=
  let all := alts.flatMap (fun alt => matchSelectorPart f alt.nodes scopeElements parentMatched)
  all.foldl (fun acc c => if containsCursor acc c then acc else acc ++ [c]) []

/-! ## Style rules and directives (src/parser/types.ts) -/

structure UseDirective where
  name : String
  fromPath : Option String
deriving Repr, DecidableEq

structure ImportDirective where
  names : List String
  fromPath : String
deriving Repr, DecidableEq

inductive StyleRule where
  | mk (selector : String) (classes : List String) (declarations : List String)
       (uses : List UseDirective) (children : List StyleRule)

def StyleRule.selector : StyleRule → String
  | .mk s _ _ _ _ => s

def StyleRule.classes : StyleRule → List String
  | .mk _ c _ _ _ => c

def StyleRule.declarations : StyleRule → List String
  | .mk _ _ d _ _ => d

def StyleRule.uses : StyleRule → List UseDirective
  | .mk _ _ _ u _ => u

def StyleRule.children : StyleRule → List StyleRule
  | .mk _ _ _ _ ch => ch

structure ExportBlock where
  name : String
  classes : List String
  declarations : List String
  uses : List UseDirective
  children : List StyleRule

structure ParseResultT where
  rules : List StyleRule
  exports : List ExportBlock
  imports : List ImportDirective

/-- Diagnostics.  `console.warn` messages become tags (message text and
source locations are not modelled). -/
inductive Warning where
  | malformedImport
  | malformedUse
  | unsupportedAtRule
  | unclosedBrace
  | duplicateExport (name : String)
  | importNameNotFound (name : String) (path : String)
  | circularUse (name : String)
  | useNotFoundInFile (name : String) (path : String)
  | useNotDefined (name : String)
deriving Repr, DecidableEq

def Warning.isCircular : Warning → Bool
  | .circularUse _ => true
  | _ => false

/-! ## Directive resolution (forward.ts 287-451)

The JS mutates `StyleRule`/`ExportBlock` objects in place; here state is
passed explicitly.  The export registry (a JS `Map` whose values alias the
export objects) is an association list threaded through the pass, so a
self-lookup observes the updates made so far, as the aliased objects do.
`extractExportsFromFile` performs file I/O (outside this core per the
design); it is the `load` collaborator parameter.  `path.resolve`/`dirname`
are modelled just faithfully enough for key and dependency construction. -/

/-- Modelled from the spec: Node's `path.resolve(dir, p)`.  Only the cycle
keys and the dependency set depend on it; concatenation keeps distinct
pairs distinct. -/
def resolvePath (dir p : String) : String := dir ++ "/" ++ p

/-- Modelled from the spec: Node's `path.dirname`.  Only key/dependency
construction depends on it. -/
def dirnameOf (p : String) : String := p

-- `cloneRule` (forward.ts 290-298): deep copy so one export can be inlined
-- at many sites.
mutual
def cloneRule : StyleRule → StyleRule
  | .mk s c d u ch => .mk s c d u (cloneRules ch)
def cloneRules : List StyleRule → List StyleRule
  | [] => []
  | r :: rs => cloneRule r :: cloneRules rs
end

def registryGet (reg : List (String × ExportBlock)) (name : String) : Option ExportBlock :=
  (reg.find? (fun p => p.1 == name)).map (·.2)

/-- JS `Map.set`: overwriting keeps the original insertion position. -/
def registrySet : List (String × ExportBlock) → String → ExportBlock → List (String × ExportBlock)
  | [], n, b => [(n, b)]
  | (k, v) :: rest, n, b => if k == n then (k, b) :: rest else (k, v) :: registrySet rest n b

/-- JS `Set.add` on the dependency set, modelled positionally. -/
def depsAdd (deps : List String) (p : String) : List String :=
  if deps.contains p then deps else deps ++ [p]

def cycleKeyOf (dir : String) (u : UseDirective) : String :=
  match u.fromPath with
  | some fp => resolvePath dir fp ++ "#" ++ u.name
  | none => u.name

/-- The `for (const use of rule.uses)` loop of `resolveUsesInRules`
(forward.ts 405-445).  `resolving.add(cycleKey)` and
`resolving.delete(cycleKey)` bracket only the straight-line inline step —
no recursive call happens in between — so the set is passed through
unchanged, exactly as in the source. -/
def inlineRuleUses (load : String → List ExportBlock) (registry : List (String × ExportBlock))
    (dir : String) (resolving : List String) :
    List UseDirective → StyleRule → List Warning → List String →
    (StyleRule × List Warning × List String)
  | [], rule, ws, deps => (rule, ws, deps)
  | u :: rest, rule, ws, deps =>
    let cycleKey := cycleKeyOf dir u
    if resolving.contains cycleKey then
      inlineRuleUses load registry dir resolving rest rule (ws ++ [.circularUse u.name]) deps
    else
      let lookup : Option ExportBlock × List Warning × List String :=
        match u.fromPath with
        | some fp =>
          let absPath := resolvePath dir fp
          let deps' := depsAdd deps absPath
          match (load absPath).find? (fun e => e.name == u.name) with
          | some b => (some b, ws, deps')
          | none => (none, ws ++ [.useNotFoundInFile u.name fp], deps')
        | none =>
          match registryGet registry u.name with
          | some b => (some b, ws, deps)
          | none => (none, ws ++ [.useNotDefined u.name], deps)
      match lookup with
      | (none, ws2, deps2) => inlineRuleUses load registry dir resolving rest rule ws2 deps2
      | (some block, ws2, deps2) =>
        let rule' := StyleRule.mk rule.selector (rule.classes ++ block.classes)
          (rule.declarations ++ block.declarations) rule.uses
          (rule.children ++ cloneRules block.children)
        inlineRuleUses load registry dir resolving rest rule' ws2 deps2

/-- `resolveUsesInRules` (forward.ts 403-451), fuelled: inline each rule's
uses, drain `uses`, then recurse into the (grown) children list. -/
def resolveUsesInRulesM (load : String → List ExportBlock) (registry : List (String × ExportBlock))
    (dir : String) :
    Nat → List StyleRule → List String → List Warning → List String →
    Option (List StyleRule × List Warning × List String)
  | 0, _, _, _, _ => none
  | _+1, [], _, ws, deps => some ([], ws, deps)
  | f+1, r :: rest, resolving, ws, deps =>
    let step := inlineRuleUses load registry dir resolving r.uses r ws deps
    match step with
    | (r1, ws1, deps1) =>
      match resolveUsesInRulesM load registry dir f r1.children resolving ws1 deps1 with
      | none => none
      | some (ch', ws2, deps2) =>
        match resolveUsesInRulesM load registry dir f rest resolving ws2 deps2 with
        | none => none
        | some (rest', ws3, deps3) =>
          some (StyleRule.mk r1.selector r1.classes r1.declarations [] ch' :: rest', ws3, deps3)

/-- The `for (const use of exp.uses)` loop of `resolveUsesInExport`
(forward.ts 359-392), operating through the registry so that a self-lookup
observes earlier appends, as the aliased JS objects do.  (When the used
block is the export itself and has children, the JS `for..of` iterates an
array growing under it and never terminates; this model appends a snapshot
of the children — no theorem below evaluates that aliased case.) -/
def inlineExportUses (load : String → List ExportBlock) (dir : String)
    (resolving : List String) (expName : String) :
    List UseDirective → List (String × ExportBlock) → List Warning → List String →
    (List (String × ExportBlock) × List Warning × List String)
  | [], reg, ws, deps => (reg, ws, deps)
  | u :: rest, reg, ws, deps =>
    let cycleKey := cycleKeyOf dir u
    if resolving.contains cycleKey then
      inlineExportUses load dir resolving expName rest reg (ws ++ [.circularUse u.name]) deps
    else
      let lookup : Option ExportBlock × List Warning × List String :=
        match u.fromPath with
        | some fp =>
          let absPath := resolvePath dir fp
          let deps' := depsAdd deps absPath
          match (load absPath).find? (fun e => e.name == u.name) with
          | some b => (some b, ws, deps')
          | none => (none, ws ++ [.useNotFoundInFile u.name fp], deps')
        | none =>
          match registryGet reg u.name with
          | some b => (some b, ws, deps)
          | none => (none, ws ++ [.useNotDefined u.name], deps)
      match lookup with
      | (none, ws2, deps2) => inlineExportUses load dir resolving expName rest reg ws2 deps2
      | (some block, ws2, deps2) =>
        let reg' :=
          match registryGet reg expName with
          | some exp =>
            registrySet reg expName
              ⟨exp.name, exp.classes ++ block.classes,
               exp.declarations ++ block.declarations, exp.uses,
               exp.children ++ cloneRules block.children⟩
          | none => reg
        inlineExportUses load dir resolving expName rest reg' ws2 deps2

/-- `resolveUsesInExport` (forward.ts 358-397): inline the export's own
uses, drain them, then resolve the nested children as rules. -/
def resolveUsesInExportM (load : String → List ExportBlock) (dir : String) (f : Nat)
    (expName : String) (reg : List (String × ExportBlock)) (resolving : List String)
    (ws : List Warning) (deps : List String) :
    Option (List (String × ExportBlock) × List Warning × List String) :=
  match registryGet reg expName with
  | none => some (reg, ws, deps)
  | some exp =>
    match inlineExportUses load dir resolving expName exp.uses reg ws deps with
    | (reg1, ws1, deps1) =>
      match registryGet reg1 expName with
      | none => some (reg1, ws1, deps1)
      | some e1 =>
        match resolveUsesInRulesM load reg1 dir f e1.children resolving ws1 deps1 with
        | none => none
        | some (ch', ws2, deps2) =>
          some (registrySet reg1 expName ⟨e1.name, e1.classes, e1.declarations, [], ch'⟩,
                ws2, deps2)

/-- Local `@export` registration (forward.ts 313-318): later duplicate names
overwrite, each overwrite warns. -/
def buildRegistry : List ExportBlock → List (String × ExportBlock) → List Warning →
    (List (String × ExportBlock) × List Warning)
  | [], reg, ws => (reg, ws)
  | e :: rest, reg, ws =>
    let ws' := if (registryGet reg e.name).isSome then ws ++ [.duplicateExport e.name] else ws
    buildRegistry rest (registrySet reg e.name e) ws'

def importNames (fileExports : List ExportBlock) (fromPath : String) :
    List String → List (String × ExportBlock) → List Warning →
    (List (String × ExportBlock) × List Warning)
  | [], reg, ws => (reg, ws)
  | nm :: rest, reg, ws =>
    match fileExports.find? (fun e => e.name == nm) with
    | some exp => importNames fileExports fromPath rest (registrySet reg nm exp) ws
    | none => importNames fileExports fromPath rest reg (ws ++ [.importNameNotFound nm fromPath])

/-- The `@import` loop (forward.ts 321-334). -/
def applyImports (load : String → List ExportBlock) (dir : String) :
    List ImportDirective → List (String × ExportBlock) → List Warning → List String →
    (List (String × ExportBlock) × List Warning × List String)
  | [], reg, ws, deps => (reg, ws, deps)
  | imp :: rest, reg, ws, deps =>
    let absPath := resolvePath dir imp.fromPath
    let deps' := depsAdd deps absPath
    let fileExports := load absPath
    match importNames fileExports imp.fromPath imp.names reg ws with
    | (reg', ws') => applyImports load dir rest reg' ws' deps'

/-- The pre-resolution loop over the registry (forward.ts 337-339); each
export gets a fresh empty `resolving` set. -/
def resolveAllExports (load : String → List ExportBlock) (dir : String) (f : Nat) :
    List String → List (String × ExportBlock) → List Warning → List String →
    Option (List (String × ExportBlock) × List Warning × List String)
  | [], reg, ws, deps => some (reg, ws, deps)
  | n :: rest, reg, ws, deps =>
    match resolveUsesInExportM load dir f n reg [] ws deps with
    | none => none
    | some (reg', ws', deps') => resolveAllExports load dir f rest reg' ws' deps'

/-- `resolveDirectives` (forward.ts 304-352): registry build, imports,
export pre-resolution, then rule resolution with a fresh empty `resolving`
set.  Returns the resolved rules, the warnings, and the dependency set. -/
def resolveDirectivesM (load : String → List ExportBlock) (result : ParseResultT)
    (filePath : String) (f : Nat) :
    Option (List StyleRule × List Warning × List String) :=
  let dir := dirnameOf filePath
  match buildRegistry result.exports [] [] with
  | (reg0, ws0) =>
    match applyImports load dir result.imports reg0 ws0 [] with
    | (reg1, ws1, deps1) =>
      match resolveAllExports load dir f (reg1.map (·.1)) reg1 ws1 deps1 with
      | none => none
      | some (reg2, ws2, deps2) =>
        match resolveUsesInRulesM load reg2 dir f result.rules [] ws2 deps2 with
        | none => none
        | some (rules', ws3, deps3) => some (rules', ws3, deps3)

-- All `uses` lists empty, recursively (the resolved-output invariant).
mutual
def usesEmptyRule : StyleRule → Bool
  | .mk _ _ _ u ch => u.isEmpty && usesEmptyRules ch
def usesEmptyRules : List StyleRule → Bool
  | [] => true
  | r :: rest => usesEmptyRule r && usesEmptyRules rest
end

-- Number of rules in a tree, at every depth (fuel measure).
mutual
def ruleCount : StyleRule → Nat
  | .mk _ _ _ _ ch => 1 + rulesCount ch
def rulesCount : List StyleRule → Nat
  | [] => 0
  | r :: rest => ruleCount r + rulesCount rest
end

/-! ## The DSL parser (src/parser/style-tree.ts)

The source text is a `List Char` scanned by absolute position.  JS
`src[i]` out of range is `undefined`, which equals no character; the model
uses the NUL sentinel (the scanners only compare against non-NUL
characters).  The scanning loops advance strictly, so they are fuelled;
`parseFuel` (length + 1) is proven sufficient below. -/

def nulC : Char := Char.ofNat 0

def charAt (src : List Char) (i : Nat) : Char := src.getD i nulC

/-- `src.substring(a, b)` for `a ≤ b` (the only call pattern). -/
def seg (src : List Char) (a b : Nat) : List Char := (src.drop a).take (b - a)

/-- JS `src.indexOf(pat, from)` (first occurrence at or after `from`). -/
def findSubAux (pat : List Char) : List Char → Nat → Option Nat
  | [], k => if pat.isEmpty then some k else none
  | l@(_ :: rest), k => if startsWithCL l pat then some k else findSubAux pat rest (k + 1)

def indexOfFrom (src pat : List Char) (from' : Nat) : Option Nat :=
  findSubAux pat (src.drop from') from'

/-- The scanner core of `findTopLevelChar` (style-tree.ts 318-355): brace
depth, attribute-bracket depth, string state (with lookback for the escape
check) and comment state.  Depths are `Int` (the JS counters can go
negative on stray closers). -/
def findTopAux (char : Char) : List Char → Nat → Char → Int → Int → Option Char → Bool → Option Nat
  | [], _, _, _, _, _, _ => none
  | c :: rest, i, prev, depth, inBracket, inString, inComment =>
    match inString with
    | some q =>
      if c == q && prev != bslash then
        findTopAux char rest (i + 1) c depth inBracket none inComment
      else findTopAux char rest (i + 1) c depth inBracket (some q) inComment
    | none =>
      if inComment then
        match rest with
        | c2 :: rest2 =>
          if c == '*' && c2 == '/' then
            findTopAux char rest2 (i + 2) '/' depth inBracket none false
          else findTopAux char (c2 :: rest2) (i + 1) c depth inBracket none true
        | [] => none
      else if c == '/' && (rest.headD nulC) == '*' then
        match rest with
        | c2 :: rest2 => findTopAux char rest2 (i + 2) c2 depth inBracket none true
        | [] => none
      else if c == quoteD || c == quoteS then
        findTopAux char rest (i + 1) c depth inBracket (some c) false
      else if c == '[' then
        findTopAux char rest (i + 1) c depth (inBracket + 1) none false
      else if c == ']' then
        findTopAux char rest (i + 1) c depth (inBracket - 1) none false
      else if inBracket == 0 then
        if c == lbrace then
          if depth == 0 && char == lbrace then some i
          else findTopAux char rest (i + 1) c (depth + 1) inBracket none false
        else if c == rbrace then
          if depth == 0 && char == rbrace then some i
          else findTopAux char rest (i + 1) c (depth - 1) inBracket none false
        else if depth == 0 && c == char then some i
        else findTopAux char rest (i + 1) c depth inBracket none false
      else findTopAux char rest (i + 1) c depth inBracket none false

/-- `findTopLevelChar` (style-tree.ts 318-355): `none` is JS `-1`. -/
def findTopLevelChar (src : List Char) (start e : Nat) (char : Char) : Option Nat :=
  findTopAux char (seg src start e) start
    (if start == 0 then nulC else charAt src (start - 1)) 0 0 none false

/-- The scanner core of `findMatchingBrace` (style-tree.ts 360-393):
depth starts at 1; returns the position where it reaches 0. -/
def findMatchAux : List Char → Nat → Char → Int → Int → Option Char → Bool → Option Nat
  | [], _, _, _, _, _, _ => none
  | c :: rest, i, prev, depth, inBracket, inString, inComment =>
    match inString with
    | some q =>
      if c == q && prev != bslash then
        findMatchAux rest (i + 1) c depth inBracket none inComment
      else findMatchAux rest (i + 1) c depth inBracket (some q) inComment
    | none =>
      if inComment then
        match rest with
        | c2 :: rest2 =>
          if c == '*' && c2 == '/' then
            findMatchAux rest2 (i + 2) '/' depth inBracket none false
          else findMatchAux (c2 :: rest2) (i + 1) c depth inBracket none true
        | [] => none
      else if c == '/' && (rest.headD nulC) == '*' then
        match rest with
        | c2 :: rest2 => findMatchAux rest2 (i + 2) c2 depth inBracket none true
        | [] => none
      else if c == quoteD || c == quoteS then
        findMatchAux rest (i + 1) c depth inBracket (some c) false
      else if c == '[' then
        findMatchAux rest (i + 1) c depth (inBracket + 1) none false
      else if c == ']' then
        findMatchAux rest (i + 1) c depth (inBracket - 1) none false
      else if inBracket == 0 then
        if c == lbrace then
          findMatchAux rest (i + 1) c (depth + 1) inBracket none false
        else if c == rbrace then
          if depth - 1 == 0 then some i
          else findMatchAux rest (i + 1) c (depth - 1) inBracket none false
        else findMatchAux rest (i + 1) c depth inBracket none false
      else findMatchAux rest (i + 1) c depth inBracket none false

/-- `findMatchingBrace` (style-tree.ts 360-393): `src.length` if unmatched. -/
def findMatchingBrace (src : List Char) (openPos : Nat) : Nat :=
  (findMatchAux (src.drop (openPos + 1)) (openPos + 1) (charAt src openPos) 1 0 none false).getD
    src.length

/-- The scanner of `skipWhitespaceAndComments` (style-tree.ts 419-430) as a
char-at-a-time automaton: the `indexOf('*/')` jump equals consuming the
comment one character at a time to the first close.  Returns the number of
characters consumed (the whole remainder when a comment is unterminated,
matching `ctx.pos = end`; the function is only called with `end` equal to
the source length). -/
def skipWSCount : List Char → Bool → Nat
  | [], _ => 0
  | c :: rest, false =>
    if jsIsSpace c then 1 + skipWSCount rest false
    else
      match c, rest with
      | '/', c2 :: rest2 => if c2 == '*' then 2 + skipWSCount rest2 true else 0
      | _, _ => 0
  | c :: rest, true =>
    match rest with
    | c2 :: rest2 =>
      if c == '*' && c2 == '/' then 2 + skipWSCount rest2 false
      else 1 + skipWSCount (c2 :: rest2) true
    | [] => 1

def skipWhitespaceAndComments (src : List Char) (pos : Nat) : Nat :=
  pos + skipWSCount (src.drop pos) false

/-- Chars after the first `*/` (for the comment-stripping regex). -/
def splitAtClose : List Char → Option (List Char)
  | [] => none
  | '*' :: '/' :: rest => some rest
  | _ :: rest => splitAtClose rest

/-- The regex `text.replace(/\/\*[\s\S]*?\*\//g, '')` (style-tree.ts 289):
each terminated comment is removed, lazily to the first close; an
unterminated `/*` remains (no later terminated comment can exist then,
since `splitAtClose` found no close).  The fuel (initial length) strictly
exceeds the consumed characters, so the 0 branch is unreachable. -/
def stripCommentsF : Nat → List Char → List Char
  | 0, l => l
  | _+1, [] => []
  | f+1, c :: rest =>
    match c, rest with
    | '/', c2 :: rest2 =>
      if c2 == '*' then
        match splitAtClose rest2 with
        | some after => stripCommentsF f after
        | none => c :: rest
      else c :: stripCommentsF f rest
    | _, _ => c :: stripCommentsF f rest

def stripComments (l : List Char) : List Char := stripCommentsF l.length l

/-- Split on `'\n'` (JS `String.prototype.split('\n')`). -/
def splitLines : List Char → List (List Char)
  | [] => [[]]
  | c :: rest =>
    if c == '\n' then [] :: splitLines rest
    else
      match splitLines rest with
      | [] => [[c]]
      | l :: ls => (c :: l) :: ls

/-- Split on `','` (JS `String.prototype.split(',')`). -/
def splitOnComma : List Char → List (List Char)
  | [] => [[]]
  | c :: rest =>
    if c == ',' then [] :: splitOnComma rest
    else
      match splitOnComma rest with
      | [] => [[c]]
      | l :: ls => (c :: l) :: ls

def joinNL : List (List Char) → List Char
  | [] => []
  | [l] => l
  | l :: ls => l ++ '\n' :: joinNL ls

/-- JS `\w`. -/
def isWordChar (c : Char) : Bool :=
  ('a' ≤ c && c ≤ 'z') || ('A' ≤ c && c ≤ 'Z') || ('0' ≤ c && c ≤ '9') || c == '_'

/-- The tail regex `\s*;?\s*$`. -/
def tailSemiOK (l : List Char) : Bool :=
  match l.dropWhile jsIsSpace with
  | [] => true
  | c :: rest => c == ';' && (rest.dropWhile jsIsSpace).isEmpty

/-- The piece `\s+from\s+['"]([^'"]+)['"]`: returns the captured path and
the remaining text.  The closing quote class admits either quote (the
regex does not force it to match the opening one). -/
def tryFromClause (l : List Char) : Option (List Char × List Char) :=
  if (l.takeWhile jsIsSpace).isEmpty then none
  else
    let r := l.dropWhile jsIsSpace
    if startsWithCL r "from".data then
      let r2 := r.drop 4
      if (r2.takeWhile jsIsSpace).isEmpty then none
      else
        let r3 := r2.dropWhile jsIsSpace
        match r3 with
        | q :: r4 =>
          if q == quoteD || q == quoteS then
            let content := r4.takeWhile (fun c => c != quoteD && c != quoteS)
            let r5 := r4.dropWhile (fun c => c != quoteD && c != quoteS)
            match r5 with
            | _ :: r6 => if !content.isEmpty then some (content, r6) else none
            | [] => none
          else none
        | [] => none
    else none

/-- `parseUseDirective` (style-tree.ts 399-403): the regex
`^@use\s+([\w][\w-]*)(?:\s+from\s+['"]([^'"]+)['"])?\s*;?\s*$`, matched
deterministically (the greedy pieces meet disjoint follow sets; a matched
from-clause with a bad tail cannot be rescued by dropping the optional
group, because the clause text itself fails `\s*;?\s*$`). -/
def parseUseDirective (text : List Char) : Option UseDirective :=
  if startsWithCL text "@use".data then
    let r1 := text.drop 4
    if (r1.takeWhile jsIsSpace).isEmpty then none
    else
      let r2 := r1.dropWhile jsIsSpace
      match r2 with
      | [] => none
      | c :: _ =>
        if isWordChar c then
          let nameRun := r2.takeWhile (fun ch => isWordChar ch || ch == '-')
          let after := r2.dropWhile (fun ch => isWordChar ch || ch == '-')
          match tryFromClause after with
          | some (path, tail) =>
            if tailSemiOK tail then some ⟨⟨nameRun⟩, some ⟨path⟩⟩ else none
          | none => if tailSemiOK after then some ⟨⟨nameRun⟩, none⟩ else none
        else none
  else none

/-- Longest-first search for the group-1 split of the `@import` regex
(its backtracking: the greedy `[\w][\w\s,-]*` gives back characters until
the rest matches). -/
def importSplitSearch (run rest : List Char) : Nat → Option (List Char × List Char)
  | 0 => none
  | k+1 =>
    match tryFromClause (run.drop (k + 1) ++ rest) with
    | some (path, tail) =>
      if tailSemiOK tail then some (run.take (k + 1), path)
      else importSplitSearch run rest k
    | none => importSplitSearch run rest k

/-- `parseImportDirective` (style-tree.ts 409-417): the regex
`^@import\s+([\w][\w\s,-]*)\s+from\s+['"]([^'"]+)['"]\s*;?\s*$`; the names
are split on `','`, trimmed and filtered non-empty. -/
def parseImportDirective (text : List Char) : Option ImportDirective :=
  if startsWithCL text "@import".data then
    let r1 := text.drop 7
    if (r1.takeWhile jsIsSpace).isEmpty then none
    else
      let r2 := r1.dropWhile jsIsSpace
      match r2 with
      | [] => none
      | c :: _ =>
        if isWordChar c then
          let run := r2.takeWhile (fun ch => isWordChar ch || jsIsSpace ch || ch == ',' || ch == '-')
          let rest := r2.drop run.length
          match importSplitSearch run rest run.length with
          | some (grp, path) =>
            let names := ((splitOnComma grp).map trimCL).filter (fun n => !n.isEmpty)
            some ⟨names.map (fun n => (⟨n⟩ : String)), ⟨path⟩⟩
          | none => none
        else none
  else none

/-- `AMBIGUOUS_TAG_CLASSES` (style-tree.ts 198-214). -/
def AMBIGUOUS_TAG_CLASSES : List String :=
  ["flex", "grid", "table", "hidden", "block", "inline", "contents", "fixed",
   "absolute", "relative", "sticky", "static", "visible", "invisible", "collapse"]

/-- `looksLikeSelector` (style-tree.ts 220-232). -/
def looksLikeSelector (text : List Char) : Bool :=
  let trimmed := trimCL text
  if startsWithCL trimmed ['>'] || startsWithCL trimmed ['+'] || startsWithCL trimmed ['~'] then
    true
  else if startsWithCL trimmed ['.'] || startsWithCL trimmed ['#'] ||
      startsWithCL trimmed ['['] || startsWithCL trimmed ['*'] ||
      startsWithCL trimmed ['&'] || startsWithCL trimmed [':'] then
    true
  else if trimmed.any (fun c => c == '>' || c == '+' || c == '~' || c == '.' || c == '#' ||
      c == '[' || c == ']' || c == ':' || c == ',') then
    true
  else if AMBIGUOUS_TAG_CLASSES.contains ⟨trimmed⟩ then false
  else true

/-- Index of the last line whose trim is non-empty. -/
def lastNonEmptyIdx (lines : List (List Char)) : Option Nat :=
  (List.range lines.length).reverse.find? (fun i => !(trimCL (lines.getD i [])).isEmpty)

/-- The backward walk including multi-line selectors joined by a trailing
comma (style-tree.ts 253-260). -/
def selStartFrom (lines : List (List Char)) : Nat → Nat
  | 0 => 0
  | i+1 => if endsWithCL (trimCL (lines.getD i [])) [','] then selStartFrom lines i else i + 1

/-- `splitClassesAndSelector` (style-tree.ts 240-276): `(classText, selector)`. -/
def splitClassesAndSelector (text : List Char) : List Char × List Char :=
  let lines := splitLines text
  match lastNonEmptyIdx lines with
  | none => ([], [])
  | some selectorEnd =>
    let selectorStart := selStartFrom lines selectorEnd
    let selector :=
      trimCL (joinNL ((lines.drop selectorStart).take (selectorEnd + 1 - selectorStart)))
    if !looksLikeSelector selector then (text, [])
    else (joinNL (lines.take selectorStart), selector)

/-- The at-rule prefix regex (style-tree.ts 92 and 164):
`^@(media|keyframes|supports|layer|container|font-face|property|page|counter-style)\b`. -/
def AT_RULE_KEYWORDS : List String :=
  ["media", "keyframes", "supports", "layer", "container", "font-face",
   "property", "page", "counter-style"]

def isUnsupportedAtRule (s : List Char) : Bool :=
  AT_RULE_KEYWORDS.any (fun kw =>
    startsWithCL s ('@' :: kw.data) &&
      (match s.drop (1 + kw.data.length) with
       | [] => true
       | c :: _ => !(isWordChar c)))

/-- `extractContent` (style-tree.ts 288-312): strip comments, then classify
each line as `@use` directive, raw declaration (trailing `;`) or
whitespace-separated class tokens. -/
def extractContentLines :
    List (List Char) → List String → List String → List UseDirective → List Warning →
    (List String × List String × List UseDirective × List Warning)
  | [], cls, decls, uses, ws => (cls, decls, uses, ws)
  | line :: rest, cls, decls, uses, ws =>
    let trimmed := trimCL line
    if trimmed.isEmpty then extractContentLines rest cls decls uses ws
    else if startsWithCL trimmed "@use ".data || trimmed == "@use".data then
      match parseUseDirective trimmed with
      | some d => extractContentLines rest cls decls (uses ++ [d]) ws
      | none => extractContentLines rest cls decls uses (ws ++ [.malformedUse])
    else if endsWithCL trimmed [';'] then
      extractContentLines rest cls (decls ++ [(⟨trimmed⟩ : String)]) uses ws
    else
      let words := ((splitOnSpaceSingle trimmed).filter (fun w => !w.isEmpty)).map
        (fun w => (⟨w⟩ : String))
      extractContentLines rest (cls ++ words) decls uses ws

def extractContent (text : List Char) :
    List String × List String × List UseDirective × List Warning :=
  extractContentLines (splitLines (stripComments text)) [] [] [] []

structure BodyContent where
  classes : List String
  declarations : List String
  uses : List UseDirective
  children : List StyleRule

def emptyBody : BodyContent := ⟨[], [], [], []⟩

/-- `parseBody` (style-tree.ts 137-188), fuelled. -/
def parseBodyF (src : List Char) :
    Nat → Nat → Nat → BodyContent → List Warning → Option (BodyContent × List Warning)
  | 0, _, _, _, _ => none
  | f+1, pos, e, acc, ws =>
    if pos < e then
      match findTopLevelChar src pos e lbrace with
      | none =>
        match extractContent (seg src pos e) with
        | (cls, decls, uses, ws2) =>
          some (BodyContent.mk (acc.classes ++ cls) (acc.declarations ++ decls)
            (acc.uses ++ uses) acc.children, ws ++ ws2)
      | some bracePos =>
        match splitClassesAndSelector (seg src pos bracePos) with
        | (classText, selector) =>
          match extractContent classText with
          | (cls, decls, uses, ws2) =>
            let acc1 : BodyContent := BodyContent.mk (acc.classes ++ cls)
              (acc.declarations ++ decls) (acc.uses ++ uses) acc.children
            let ws' := ws ++ ws2
            let closePos := findMatchingBrace src bracePos
            let trimmedSel := trimCL selector
            if isUnsupportedAtRule trimmedSel then
              parseBodyF src f (closePos + 1) e acc1 (ws' ++ [.unsupportedAtRule])
            else
              match parseBodyF src f (bracePos + 1) closePos emptyBody [] with
              | none => none
              | some (inner, wsInner) =>
                let child := StyleRule.mk ⟨trimmedSel⟩ inner.classes inner.declarations
                  inner.uses inner.children
                parseBodyF src f (closePos + 1) e
                  (BodyContent.mk acc1.classes acc1.declarations acc1.uses
                    (acc1.children ++ [child])) (ws' ++ wsInner)
    else some (acc, ws)

/-- `parseRules` (style-tree.ts 54-127), fuelled. -/
def parseRulesF (src : List Char) :
    Nat → Nat → Nat → List StyleRule → List ExportBlock → List ImportDirective → List Warning →
    Option (List StyleRule × List ExportBlock × List ImportDirective × List Warning)
  | 0, _, _, _, _, _, _ => none
  | f+1, pos, e, rules, exps, imps, ws =>
    let pos1 := skipWhitespaceAndComments src pos
    if pos1 < e then
      if startsWithCL (src.drop pos1) "@import ".data then
        let actualEnd :=
          match indexOfFrom src ['\n'] pos1 with
          | none => e
          | some le => Nat.min le e
        let line := trimCL (seg src pos1 actualEnd)
        match parseImportDirective line with
        | some d => parseRulesF src f (actualEnd + 1) e rules exps (imps ++ [d]) ws
        | none => parseRulesF src f (actualEnd + 1) e rules exps imps (ws ++ [.malformedImport])
      else
        match findTopLevelChar src pos1 e lbrace with
        | none => some (rules, exps, imps, ws)
        | some bracePos =>
          let textBefore := trimCL (seg src pos1 bracePos)
          let closePos := findMatchingBrace src bracePos
          let ws1 := if src.length ≤ closePos then ws ++ [.unclosedBrace] else ws
          if isUnsupportedAtRule textBefore then
            parseRulesF src f (closePos + 1) e rules exps imps (ws1 ++ [.unsupportedAtRule])
          else
            match parseBodyF src f (bracePos + 1) closePos emptyBody [] with
            | none => none
            | some (body, wsB) =>
              if startsWithCL textBefore "@export ".data then
                let name := trimCL (textBefore.drop 8)
                parseRulesF src f (closePos + 1) e rules
                  (exps ++ [⟨⟨name⟩, body.classes, body.declarations, body.uses, body.children⟩])
                  imps (ws1 ++ wsB)
              else
                parseRulesF src f (closePos + 1) e
                  (rules ++ [StyleRule.mk ⟨textBefore⟩ body.classes body.declarations body.uses
                    body.children])
                  exps imps (ws1 ++ wsB)
    else some (rules, exps, imps, ws)

def parseFuel (src : List Char) : Nat := src.length + 2

/-- `parseStyleBlock` (style-tree.ts 20-23): parse the whole block with the
proven-sufficient fuel; the result carries the diagnostics. -/
def parseStyleBlockW (text : String) : Option (ParseResultT × List Warning) :=
  match parseRulesF text.data (parseFuel text.data) 0 text.data.length [] [] [] [] with
  | none => none
  | some (rules, exps, imps, ws) => some (⟨rules, exps, imps⟩, ws)

/-! ## Concrete instances used by the claims' examples -/

/-- `A(chain=1, branch=0)` from the conditional-sibling example. -/
def condA : TNode := .mk "a" none [] [] (some ⟨1, 0⟩) []
/-- `B(chain=1, branch=1)`. -/
def condB : TNode := .mk "b" none [] [] (some ⟨1, 1⟩) []
/-- the untagged `C`. -/
def condC : TNode := .mk "c" none [] [] none []
def condParent : TNode := .mk "div" none [] [] none [condA, condB, condC]
def condCP : Cursor := .mk condParent none
def condCA : Cursor := .mk condA (some ([], [condB, condC], condCP))
def condCB : Cursor := .mk condB (some ([condA], [condC], condCP))
def condCC : Cursor := .mk condC (some ([condA, condB], [], condCP))

/-- A node with an immediate `img` child. -/
def imgShallow : TNode := .mk "div" none [] [] none [.mk "img" none [] [] none []]
/-- A node whose only `img` descendant is two levels deep. -/
def imgDeep : TNode :=
  .mk "div" none [] [] none [.mk "span" none [] [] none [.mk "img" none [] [] none []]]
def cImgShallow : Cursor := .mk imgShallow none
def cImgDeep : Cursor := .mk imgDeep none

/-- the parsed inner selector of `:has(> img)`. -/
def hasGtImgNodes : List SelNode := [.combinator ">", .tag "img"]
/-- the parsed inner selector of `:has(img)`. -/
def hasImgNodes : List SelNode := [.tag "img"]

-- `descendant with tag t exists` (specification-side predicate for C4).
mutual
def nodeOrDescendantHasTag (t : String) : TNode → Bool
  | .mk tg _ _ _ _ ch => tg == t || hasDescendantTag t ch
def hasDescendantTag (t : String) : List TNode → Bool
  | [] => false
  | n :: rest => nodeOrDescendantHasTag t n || hasDescendantTag t rest
end

-- Total number of template nodes (fuel measure).
mutual
def tnodeCount : TNode → Nat
  | .mk _ _ _ _ _ ch => 1 + tcountList ch
def tcountList : List TNode → Nat
  | [] => 0
  | n :: rest => tnodeCount n + tcountList rest
end

/-- The selector sub-computation of `splitClassesAndSelector`
(style-tree.ts 244-265), named for the statements about it. -/
def selectorCandidate (text : List Char) : List Char :=
  let lines := splitLines text
  match lastNonEmptyIdx lines with
  | none => []
  | some selectorEnd =>
    let selectorStart := selStartFrom lines selectorEnd
    trimCL (joinNL ((lines.drop selectorStart).take (selectorEnd + 1 - selectorStart)))

/-- The self-referential `@use` cycle: `@export a` whose body is the class
`x` plus `@use a`, and a rule `&` with `@use a`. -/
def cycleUse : UseDirective := ⟨"a", none⟩
def cycleExport : ExportBlock := ⟨"a", ["x"], [], [cycleUse], []⟩
def cycleRule : StyleRule := .mk "&" [] [] [cycleUse] []
def cycleInput : ParseResultT := ⟨[cycleRule], [cycleExport], []⟩

/-- No warning in the list is the circular-use diagnostic. -/
def noCirc (ws : List Warning) : Bool := ws.all (fun w => !w.isCircular)

/-! # Theorems -/

/-- Truncated `tmod 2` of a nonpositive integer is nonpositive. -/
theorem tmod_two_nonpos : ∀ (p : Int), p ≤ 0 → p.tmod 2 ≤ 0
  | Int.ofNat 0, _ => by decide
  | Int.ofNat (n+1), h => by rw [Int.ofNat_eq_natCast] at h; omega
  | Int.negSucc m, _ => by
    have h2 : (Int.negSucc m).tmod 2 = -(Int.ofNat ((m+1) % 2)) := rfl
    rw [h2, Int.ofNat_eq_natCast]
    omega

/-- C3: the An+B evaluator at a 1-based position p: `odd` matches exactly
the odd positions, `even` exactly the even ones, `"2n+1"` matches exactly
the positions `odd` does, `"3"` matches position 3 only, `"-n+3"` matches
positions 1, 2 and 3 only, and any argument that parses as none of the
supported forms matches every position. -/
theorem anPlusB_evaluator_correct :
    (∀ p : Int, 1 ≤ p → (matchesAnPlusB "odd" p = true ↔ Odd p)) ∧
    (∀ p : Int, 1 ≤ p → (matchesAnPlusB "even" p = true ↔ Even p)) ∧
    (∀ p : Int, matchesAnPlusB "2n+1" p = matchesAnPlusB "odd" p) ∧
    (∀ p : Int, matchesAnPlusB "3" p = true ↔ p = 3) ∧
    (∀ p : Int, 1 ≤ p → (matchesAnPlusB "-n+3" p = true ↔ p ≤ 3)) ∧
    (∀ (s : String) (p : Int),
      anbNormalize s ≠ "odd".data → anbNormalize s ≠ "even".data →
      isIntLit (anbNormalize s) = false → anbMatch (anbNormalize s) = none →
      matchesAnPlusB s p = true) := by
  refine ⟨?_, ?_, ?_, ?_, ?_, ?_⟩
  · intro p hp
    show (p.tmod 2 == 1) = true ↔ Odd p
    rw [Int.tmod_eq_emod (by omega) (by norm_num), Int.odd_iff]
    simp only [beq_iff_eq]
  · intro p hp
    show (p.tmod 2 == 0) = true ↔ Even p
    rw [Int.tmod_eq_emod (by omega) (by norm_num), Int.even_iff]
    simp only [beq_iff_eq]
  · intro p
    show (if p - 1 == 0 then true else decide (p - 1 > 0) && ((p - 1).tmod 2 == 0)) =
      (p.tmod 2 == 1)
    rcases le_or_lt p 0 with h | h
    · have h1 := tmod_two_nonpos p h
      rw [if_neg (by simp only [beq_iff_eq]; omega)]
      rw [Bool.eq_iff_iff]
      simp only [Bool.and_eq_true, decide_eq_true_eq, beq_iff_eq]
      omega
    · have e1 : p.tmod 2 = p % 2 := Int.tmod_eq_emod (by omega) (by norm_num)
      by_cases hp1 : p = 1
      · subst hp1; decide
      · have e2 : (p - 1).tmod 2 = (p - 1) % 2 := Int.tmod_eq_emod (by omega) (by norm_num)
        rw [if_neg (by simp only [beq_iff_eq]; omega)]
        rw [Bool.eq_iff_iff]
        simp only [Bool.and_eq_true, decide_eq_true_eq, beq_iff_eq, e1, e2]
        omega
  · intro p
    show (p == 3) = true ↔ p = 3
    simp
  · intro p hp
    show (if p - 3 == 0 then true
        else decide (p - 3 ≤ 0) && ((p - 3).tmod (-1) == 0)) = true ↔ p ≤ 3
    have hm : (p - 3).tmod (-1) = 0 := by rw [Int.tmod_neg, Int.tmod_one]
    rw [hm]
    split
    · rename_i hc
      simp only [beq_iff_eq] at hc
      constructor
      · intro; omega
      · intro; rfl
    · rename_i hc
      simp only [beq_iff_eq] at hc
      simp only [Bool.and_eq_true, decide_eq_true_eq, beq_iff_eq]
      constructor
      · rintro ⟨h1, _⟩; omega
      · intro h1; exact ⟨by omega, trivial⟩
  · intro s p h1 h2 h3 h4
    unfold matchesAnPlusB
    rw [if_neg h1, if_neg h2, h3, h4]
    rfl

/-- C3 witness: the theorem applied at concrete positions. -/
theorem anPlusB_evaluator_correct_witness :
    matchesAnPlusB "-n+3" 2 = true ∧ matchesAnPlusB "odd" 5 = true :=
  ⟨(anPlusB_evaluator_correct.2.2.2.2.1 2 (by norm_num)).mpr (by norm_num),
   (anPlusB_evaluator_correct.1 5 (by norm_num)).mpr ⟨2, by norm_num⟩⟩

/-- The inline filter predicate of `getRuntimeSiblings` is the negation of
`isConditionalAlternative`. -/
theorem keep_eq_not_alt (a b : TNode) :
    keepRuntimeSibling a b = !(isConditionalAlternative a b) := by
  unfold keepRuntimeSibling isConditionalAlternative
  cases a.conditional with
  | none => rfl
  | some ca =>
    cases b.conditional with
    | none => rfl
    | some cb =>
      cases h1 : ca.chainId == cb.chainId <;> cases h2 : ca.branchIdx == cb.branchIdx <;>
        simp [bne, h1, h2]

/-- C2: the runtime sibling list of a node n is n.parent.children with every
conditional alternative of n (same chainId, different branchIdx) removed;
for raw children [A(chain 1, branch 0), B(chain 1, branch 1), C(untagged)]
the runtime sibling list from A is [A, C] and from B is [B, C], A and B
both satisfy :first-child, and the adjacent-sibling step from anchor A
matches C but never matches B. -/
theorem runtime_siblings_drop_alternatives :
    (∀ (n : TNode) (l r : List TNode) (p : Cursor),
      getRuntimeSiblings (Cursor.mk n (some (l, r, p))) =
        (l ++ n :: r).filter (fun sib => !(isConditionalAlternative n sib))) ∧
    getRuntimeSiblings condCA = [condA, condC] ∧
    getRuntimeSiblings condCB = [condB, condC] ∧
    matchStructuralPseudo condCA ":first-child" [] = true ∧
    matchStructuralPseudo condCB ":first-child" [] = true ∧
    matchAdjacentSiblingViaParent 10 [condCA] [.tag "c"] = [condCC] ∧
    matchAdjacentSiblingViaParent 10 [condCA] [.tag "b"] = [] ∧
    (∀ (f : Nat) (parts : List SelNode),
      containsCursor (matchAdjacentSiblingViaParent f [condCA] parts) condCB = false) := by
  refine ⟨?_, by rfl, by rfl, by decide, by decide, by rfl, by rfl, ?_⟩
  · intro n l r p
    show (l ++ n :: r).filter (keepRuntimeSibling n) = _
    exact List.filter_congr (fun x _ => keep_eq_not_alt n x)
  · intro f parts
    match f with
    | 0 => rfl
    | 1 => rfl
    | 2 => rfl
    | (f+3) =>
      have hAB : isConditionalAlternative condA condB = true := by decide
      have hAC : isConditionalAlternative condA condC = false := by decide
      cases hm : matchesCompound f (Cursor.mk condC (some ([condA, condB], [], condCP))) parts with
      | false =>
        have hstep : matchAdjacentSiblingViaParent (f+3) [condCA] parts = [] := by
          show matchAdjViaParentAux (f+3) [condCA] parts [] = _
          simp only [matchAdjViaParentAux, condCA, adjacentScan, hAB, hAC, if_true, if_false,
            List.nil_append, List.cons_append, Bool.false_eq_true, hm]
        rw [hstep]; rfl
      | true =>
        have hstep : matchAdjacentSiblingViaParent (f+3) [condCA] parts =
            [Cursor.mk condC (some ([condA, condB], [], condCP))] := by
          show matchAdjViaParentAux (f+3) [condCA] parts [] = _
          simp only [matchAdjViaParentAux, condCA, adjacentScan, hAB, hAC, if_true, if_false,
            List.nil_append, List.cons_append, Bool.false_eq_true, hm, containsCursor,
            List.any_nil]
        rw [hstep]; decide

/-- C10: a template node with no parent has the one-element runtime sibling
list `[n]`, hence every root-level node (all of which get no parent, even
in a multi-root template) satisfies :first-child, :last-child and
:only-child. -/
theorem root_level_structural_pseudos :
    (∀ n : TNode,
      getRuntimeSiblings (Cursor.mk n none) = [n] ∧
      matchStructuralPseudo (Cursor.mk n none) ":first-child" [] = true ∧
      matchStructuralPseudo (Cursor.mk n none) ":last-child" [] = true ∧
      matchStructuralPseudo (Cursor.mk n none) ":only-child" [] = true) ∧
    (∀ (roots : List TNode) (c : Cursor), c ∈ rootCursors roots →
      getRuntimeSiblings c = [c.node] ∧
      matchStructuralPseudo c ":first-child" [] = true ∧
      matchStructuralPseudo c ":last-child" [] = true ∧
      matchStructuralPseudo c ":only-child" [] = true) := by
  have base : ∀ n : TNode,
      getRuntimeSiblings (Cursor.mk n none) = [n] ∧
      matchStructuralPseudo (Cursor.mk n none) ":first-child" [] = true ∧
      matchStructuralPseudo (Cursor.mk n none) ":last-child" [] = true ∧
      matchStructuralPseudo (Cursor.mk n none) ":only-child" [] = true :=
    fun n => ⟨rfl, rfl, rfl, rfl⟩
  refine ⟨base, ?_⟩
  intro roots c hc
  rcases List.mem_map.mp hc with ⟨n, _, rfl⟩
  exact base n

/-- C10 witness. -/
theorem root_level_structural_pseudos_witness :
    matchStructuralPseudo (Cursor.mk condA none) ":only-child" [] = true :=
  (root_level_structural_pseudos.2 [condA, condB] (Cursor.mk condA none)
    (by simp [rootCursors])).2.2.2

theorem matchAdjViaParentAux_nil_anchors (f : Nat) (parts : List SelNode) (acc : List Cursor) :
    matchAdjViaParentAux f [] parts acc = acc := by
  cases f <;> rfl

theorem matchGenViaParentAux_nil_anchors (f : Nat) (parts : List SelNode) (acc : List Cursor) :
    matchGenViaParentAux f [] parts acc = acc := by
  cases f <;> rfl

/-- Chaining any remaining segments preserves the empty candidate set. -/
theorem chainSegments_nil_current (f : Nat) (segs : List Segment) :
    chainSegments f [] segs = [] := by
  induction f generalizing segs with
  | zero => rfl
  | succ f ih =>
    cases segs with
    | nil => rfl
    | cons seg rest =>
      show chainSegments (f+1) [] (seg :: rest) = []
      simp only [chainSegments, List.flatMap_nil, matchAdjViaParentAux_nil_anchors,
        matchGenViaParentAux_nil_anchors]
      split <;> first | exact ih rest | skip
      all_goals split <;> first | exact ih rest | skip
      all_goals split <;> exact ih rest

/-- C9: a selector whose first combinator segment is introduced by a leading
'+' or '~' matches nothing: the first-segment sibling matchers run with an
empty anchor set, and every later segment preserves emptiness. -/
theorem leading_sibling_combinator_empty :
    ∀ (f : Nat) (selNodes : List SelNode) (scope : List Cursor)
      (pm : Option (List Cursor)) (first : Segment) (rest : List Segment),
      splitIntoCombinatorSegments selNodes = first :: rest →
      (first.combinator = "+" ∨ first.combinator = "~") →
      matchSelectorPart f selNodes scope pm = [] := by
  intro f selNodes scope pm first rest hsplit hcomb
  have hnotsole : isSoleNesting selNodes = false := by
    cases hs : isSoleNesting selNodes
    · rfl
    · exfalso
      have : selNodes = [SelNode.nesting] := by
        match selNodes, hs with
        | [SelNode.nesting], _ => rfl
      rw [this] at hsplit
      simp [splitIntoCombinatorSegments, splitSegsAux] at hsplit
  unfold matchSelectorPart
  rw [hnotsole]
  simp only [Bool.false_eq_true, if_false, hsplit]
  rcases hcomb with h | h <;> rw [h]
  · show chainSegments f (matchAdjacentSibling f scope [] first.parts) rest = []
    have : matchAdjacentSibling f scope [] first.parts = [] := rfl
    rw [this, chainSegments_nil_current]
  · show chainSegments f (matchGeneralSibling f scope [] first.parts) rest = []
    have : matchGeneralSibling f scope [] first.parts = [] := rfl
    rw [this, chainSegments_nil_current]

/-- C9 witness: `+ p` as a whole selector matches nothing in a scope. -/
theorem leading_sibling_combinator_empty_witness :
    matchSelectorPart 10 [.combinator "+", .tag "p"] [condCP] none = [] :=
  leading_sibling_combinator_empty 10 _ _ _ ⟨"+", [.tag "p"]⟩ [] (by rfl) (Or.inl rfl)

theorem startsWithCL_iff : ∀ (s p : List Char), startsWithCL s p = true ↔ p <+: s := by
  intro s p
  induction p generalizing s with
  | nil => simp only [startsWithCL]; simp [List.nil_prefix]
  | cons a as ih =>
    cases s with
    | nil => simp [startsWithCL]
    | cons b bs =>
      simp only [startsWithCL, List.cons_prefix_cons, Bool.and_eq_true, beq_iff_eq, ih]
      constructor
      · rintro ⟨h1, h2⟩; exact ⟨h1.symm, h2⟩
      · rintro ⟨h1, h2⟩; exact ⟨h1.symm, h2⟩

theorem endsWithCL_iff (s p : List Char) : endsWithCL s p = true ↔ p <:+ s := by
  rw [endsWithCL, startsWithCL_iff, List.reverse_prefix]

theorem includesCL_iff : ∀ (s p : List Char), includesCL s p = true ↔ p <:+: s := by
  intro s p
  induction s with
  | nil =>
    simp only [includesCL, beq_iff_eq, List.infix_nil]
  | cons c rest ih =>
    simp [includesCL, List.infix_cons_iff, startsWithCL_iff, ih]

/-- C6: attribute simple selectors: bare [attr] is presence; `=` is string
equality, `^=` prefix, `$=` suffix, `*=` substring, `~=` membership in the
whitespace-split token list, `|=` equality or prefix plus `-`; a boolean
attribute value satisfies no value-bearing operator. -/
theorem attribute_selector_semantics :
    ∀ (f : Nat) (c : Cursor) (name v : String),
      (matchesCompound (f+2) c [.attr name none none] = true ↔
        (attrLookup c.node name).isSome) ∧
      (matchesCompound (f+2) c [.attr name (some "=") (some v)] = true ↔
        attrLookup c.node name = some (.str v)) ∧
      (matchesCompound (f+2) c [.attr name (some "^=") (some v)] = true ↔
        ∃ w, attrLookup c.node name = some (.str w) ∧ v.data <+: w.data) ∧
      (matchesCompound (f+2) c [.attr name (some "$=") (some v)] = true ↔
        ∃ w, attrLookup c.node name = some (.str w) ∧ v.data <:+ w.data) ∧
      (matchesCompound (f+2) c [.attr name (some "*=") (some v)] = true ↔
        ∃ w, attrLookup c.node name = some (.str w) ∧ v.data <:+: w.data) ∧
      (matchesCompound (f+2) c [.attr name (some "~=") (some v)] = true ↔
        ∃ w, attrLookup c.node name = some (.str w) ∧ v.data ∈ jsSplitWs w.data) ∧
      (matchesCompound (f+2) c [.attr name (some "|=") (some v)] = true ↔
        ∃ w, attrLookup c.node name = some (.str w) ∧
          (w = v ∨ (v.data ++ ['-']) <+: w.data)) ∧
      (∀ op : String, op ∈ ["=", "^=", "$=", "*=", "~=", "|="] →
        attrLookup c.node name = some .boolT →
        matchesCompound (f+2) c [.attr name (some op) (some v)] = false) := by
  intro f c name v
  have htail : ∀ (x : Cursor), matchesCompound (f+1) x [] = true := fun _ => rfl
  refine ⟨?_, ?_, ?_, ?_, ?_, ?_, ?_, ?_⟩
  all_goals
    first
    | (intro op hop hbool
       show (_ && matchesCompound (f+1) c []) = false
       fin_cases hop <;> simp [hbool])
    | (show (_ && matchesCompound (f+1) c []) = true ↔ _
       rw [htail, Bool.and_true]
       rcases hl : attrLookup c.node name with _ | val
       · simp [hl]
       · cases val with
         | boolT => simp [hl]
         | str w => simp [hl, startsWithCL_iff, endsWithCL_iff, includesCL_iff, List.elem_iff])

theorem siblingCursorsAux_map_node (p : Cursor) :
    ∀ (rest pre : List TNode), (siblingCursorsAux p pre rest).map Cursor.node = rest := by
  intro rest
  induction rest with
  | nil => intro pre; rfl
  | cons n ns ih => intro pre; simp [siblingCursorsAux, Cursor.node, ih]

theorem childCursors_map_node (c : Cursor) :
    (childCursors c).map Cursor.node = c.node.children :=
  siblingCursorsAux_map_node c c.node.children []

theorem matchesCompound_tag (f : Nat) (c : Cursor) (t : String) :
    matchesCompound (f+2) c [.tag t] = (c.node.tag == t) := by
  show ((c.node.tag == t) && matchesCompound (f+1) c []) = _
  rw [show matchesCompound (f+1) c [] = true from rfl, Bool.and_true]

/-- Any fuel at least 2 evaluates a sole tag compound exactly. -/
theorem matchesCompound_tag_ge (f : Nat) (hf : 2 ≤ f) (c : Cursor) (t : String) :
    matchesCompound f c [.tag t] = (c.node.tag == t) := by
  obtain ⟨g, rfl⟩ : ∃ g, f = g + 2 := ⟨f - 2, by omega⟩
  exact matchesCompound_tag g c t

/-- Bool bridge: an "is false iff other is true" pair is a negation. -/
theorem bool_eq_not_of {a b : Bool} (h : (a = false) ↔ (b = true)) : a = !b := by
  cases a <;> cases b <;> simp_all

theorem isEmpty_append (l1 l2 : List Cursor) :
    (l1 ++ l2).isEmpty = (l1.isEmpty && l2.isEmpty) := by
  cases l1 <;> cases l2 <;> simp

/-- The descendant search for a sole tag compound finds exactly the
subtrees containing that tag, given fuel at least the node count plus 2. -/
theorem findDesc_tag (t : String) :
    ∀ (f : Nat) (cs : List Cursor), 2 + tcountList (cs.map Cursor.node) ≤ f →
      (((findDescendantsMatching f cs [.tag t]).isEmpty = false) ↔
        hasDescendantTag t (cs.map Cursor.node) = true) := by
  intro f
  induction f with
  | zero => intro cs h; omega
  | succ f ih =>
    intro cs h
    cases cs with
    | nil => simp [findDescendantsMatching, hasDescendantTag]
    | cons c rest =>
      rcases c with ⟨n, fr⟩
      rcases n with ⟨tg, i, cl, at', cd, ch⟩
      have hcount : tcountList ((Cursor.mk (.mk tg i cl at' cd ch) fr :: rest).map Cursor.node) =
          1 + tcountList ch + tcountList (rest.map Cursor.node) := by
        simp [tcountList, tnodeCount, Cursor.node]
      have hch : 2 + tcountList ((childCursors (Cursor.mk (.mk tg i cl at' cd ch) fr)).map Cursor.node) ≤ f := by
        rw [childCursors_map_node]
        simp only [Cursor.node, TNode.children]
        omega
      have hrest : 2 + tcountList (rest.map Cursor.node) ≤ f := by omega
      have hmc : matchesCompound f (Cursor.mk (.mk tg i cl at' cd ch) fr) [.tag t] =
          ((Cursor.mk (.mk tg i cl at' cd ch) fr).node.tag == t) :=
        matchesCompound_tag_ge f (by omega) _ t
      have e1 : findDescendantsMatching (f+1) (Cursor.mk (.mk tg i cl at' cd ch) fr :: rest) [.tag t] =
          (if matchesCompound f (Cursor.mk (.mk tg i cl at' cd ch) fr) [.tag t]
           then [Cursor.mk (.mk tg i cl at' cd ch) fr] else []) ++
            (findDescendantsMatching f (childCursors (Cursor.mk (.mk tg i cl at' cd ch) fr)) [.tag t] ++
             findDescendantsMatching f rest [.tag t]) := by
        simp [findDescendantsMatching]
      have h2 : (findDescendantsMatching f (childCursors (Cursor.mk (.mk tg i cl at' cd ch) fr)) [.tag t]).isEmpty
          = !(hasDescendantTag t ch) := by
        refine bool_eq_not_of ?_
        have := ih (childCursors (Cursor.mk (.mk tg i cl at' cd ch) fr)) hch
        rwa [childCursors_map_node] at this
      have h3 : (findDescendantsMatching f rest [.tag t]).isEmpty
          = !(hasDescendantTag t (rest.map Cursor.node)) :=
        bool_eq_not_of (ih rest hrest)
      rw [e1, hmc]
      rw [isEmpty_append, isEmpty_append, h2, h3]
      simp only [List.map_cons, hasDescendantTag, nodeOrDescendantHasTag, Cursor.node, TNode.tag]
      rcases Bool.eq_false_or_eq_true (tg == t) with hq | hq <;>
        rcases Bool.eq_false_or_eq_true (hasDescendantTag t ch) with h4 | h4 <;>
        rcases Bool.eq_false_or_eq_true (hasDescendantTag t (rest.map Cursor.node)) with h5 | h5 <;>
        simp [hq, h4, h5]

/-- C4: `:has()` is evaluated forward from the subject: it holds iff some
comma-separated inner alternative yields at least one result; a leading `>`
searches only direct children while no leading combinator searches the full
subtree; hence an immediate `img` child satisfies `:has(> img)`, an `img`
two levels deep does not satisfy `:has(> img)` but satisfies `:has(img)`. -/
theorem has_selector_forward :
    (∀ (f : Nat) (c : Cursor) (inners : List SelSel),
      matchesCompound (f+2) c [.pseudo ":has" inners] = true ↔
        ∃ inner ∈ inners, matchesHasSelector (f+1) c inner.nodes = true) ∧
    (∀ (f : Nat) (c : Cursor),
      matchesHasSelector (f+3) c hasGtImgNodes = true ↔
        ∃ n ∈ c.node.children, n.tag = "img") ∧
    (∀ (f : Nat) (c : Cursor), 2 + tcountList c.node.children ≤ f + 1 →
      (matchesHasSelector (f+2) c hasImgNodes = true ↔
        hasDescendantTag "img" c.node.children = true)) ∧
    matchesCompound 10 cImgShallow [.pseudo ":has" [.mk hasGtImgNodes "> img"]] = true ∧
    matchesCompound 10 cImgDeep [.pseudo ":has" [.mk hasGtImgNodes "> img"]] = false ∧
    matchesCompound 10 cImgDeep [.pseudo ":has" [.mk hasImgNodes "img"]] = true := by
  refine ⟨?_, ?_, ?_, by rfl, by rfl, by rfl⟩
  · intro f c inners
    show ((inners.any fun i => matchesHasSelector (f+1) c i.nodes) &&
        matchesCompound (f+1) c []) = true ↔ _
    rw [show matchesCompound (f+1) c [] = true from rfl, Bool.and_true, List.any_eq_true]
  · intro f c
    have e : matchesHasSelector (f+3) c hasGtImgNodes =
        !((childCursors c).filter (fun ch => matchesCompound (f+2) ch [.tag "img"])).isEmpty :=
      rfl
    have hfilter : (childCursors c).filter (fun ch => matchesCompound (f+2) ch [.tag "img"]) =
        (childCursors c).filter (fun ch => ch.node.tag == "img") :=
      List.filter_congr (fun x _ => matchesCompound_tag f x "img")
    rw [e, hfilter, Bool.not_eq_true']
    constructor
    · intro hne
      have hne2 : (childCursors c).filter (fun x => x.node.tag == "img") ≠ [] := by
        intro hnil; rw [hnil] at hne; simp at hne
      have : ¬ ∀ a ∈ childCursors c, ¬((fun x => x.node.tag == "img") a = true) := by
        intro hall
        exact hne2 (List.filter_eq_nil_iff.mpr hall)
      push_neg at this
      rcases this with ⟨ch, hch, htag⟩
      refine ⟨ch.node, ?_, by simpa using htag⟩
      rw [← childCursors_map_node c]
      exact List.mem_map_of_mem _ hch
    · rintro ⟨n, hn, htag⟩
      rw [← childCursors_map_node c] at hn
      rcases List.mem_map.mp hn with ⟨ch, hch, rfl⟩
      have hmem : ch ∈ (childCursors c).filter (fun x => x.node.tag == "img") :=
        List.mem_filter.mpr ⟨hch, by simpa using htag⟩
      cases hq : ((childCursors c).filter (fun x => x.node.tag == "img")).isEmpty
      · rfl
      · rw [List.isEmpty_iff] at hq
        rw [hq] at hmem
        simp at hmem
  · intro f c hf
    have e : matchesHasSelector (f+2) c hasImgNodes =
        !(findDescendantsMatching (f+1) (childCursors c) [.tag "img"]).isEmpty := rfl
    rw [e]
    have h := findDesc_tag "img" (f+1) (childCursors c)
      (by rw [childCursors_map_node]; omega)
    rw [childCursors_map_node] at h
    rw [Bool.not_eq_true']
    exact h

/-- C4 witness: the subtree part of the theorem at a concrete node. -/
theorem has_selector_forward_witness :
    matchesHasSelector 7 cImgDeep hasImgNodes = true :=
  (has_selector_forward.2.2.1 5 cImgDeep (by decide)).mpr (by decide)

/-- C8: re-resolving an already-resolved rule tree (empty `uses` at every
depth) is a no-op: every rule's selector, classes, declarations and
children are unchanged, and no diagnostics or dependencies are added. -/
theorem resolve_use_idempotent :
    ∀ (load : String → List ExportBlock) (registry : List (String × ExportBlock))
      (dir : String) (f : Nat) (rules : List StyleRule) (resolving : List String)
      (ws : List Warning) (deps : List String),
      usesEmptyRules rules = true → rulesCount rules < f →
      resolveUsesInRulesM load registry dir f rules resolving ws deps =
        some (rules, ws, deps) := by
  intro load registry dir f
  induction f with
  | zero => intro rules resolving ws deps _ hc; omega
  | succ f ih =>
    intro rules resolving ws deps hu hc
    cases rules with
    | nil => rfl
    | cons r rest =>
      rcases r with ⟨sel, cls, decls, u, ch⟩
      simp only [usesEmptyRules, usesEmptyRule, Bool.and_eq_true, List.isEmpty_iff] at hu
      obtain ⟨⟨h1, h2⟩, h3⟩ := hu
      subst h1
      have hcc : rulesCount (StyleRule.mk sel cls decls [] ch :: rest) =
          1 + rulesCount ch + rulesCount rest := by
        simp [rulesCount, ruleCount]
      rw [hcc] at hc
      show resolveUsesInRulesM load registry dir (f+1)
          (StyleRule.mk sel cls decls [] ch :: rest) resolving ws deps = _
      simp only [resolveUsesInRulesM, StyleRule.uses, inlineRuleUses, StyleRule.children,
        StyleRule.selector, StyleRule.classes, StyleRule.declarations]
      rw [ih ch resolving ws deps h2 (by omega)]
      dsimp only
      rw [ih rest resolving ws deps h3 (by omega)]

/-- C8 witness: the theorem applied at a concrete resolved tree. -/
theorem resolve_use_idempotent_witness :
    resolveUsesInRulesM (fun _ => []) [] "d" 3
      [StyleRule.mk "&" ["a"] [] [] [StyleRule.mk "p" ["b"] [] [] []]] [] [] [] =
      some ([StyleRule.mk "&" ["a"] [] [] [StyleRule.mk "p" ["b"] [] [] []]], [], []) :=
  resolve_use_idempotent (fun _ => []) [] "d" 3 _ [] [] [] (by decide) (by decide)

/-- No warning in the list is a circular-use diagnostic. -/
theorem noCirc_append (a b : List Warning) : noCirc (a ++ b) = (noCirc a && noCirc b) :=
  List.all_append

theorem inlineRuleUses_no_circ (load : String → List ExportBlock)
    (registry : List (String × ExportBlock)) (dir : String) :
    ∀ (uses : List UseDirective) (rule : StyleRule) (ws : List Warning) (deps : List String),
      noCirc ws = true →
      noCirc (inlineRuleUses load registry dir [] uses rule ws deps).2.1 = true := by
  intro uses
  induction uses with
  | nil => intro rule ws deps h; exact h
  | cons u rest ih =>
    intro rule ws deps h
    show noCirc (inlineRuleUses load registry dir [] (u :: rest) rule ws deps).2.1 = true
    rw [inlineRuleUses]
    rw [if_neg (by simp [List.contains])]
    rcases u with ⟨uname, _ | fp⟩
    · dsimp only
      cases hreg : registryGet registry uname <;>
        · dsimp only
          apply ih
          first
          | exact h
          | (rw [noCirc_append, h]; rfl)
    · dsimp only
      cases hload : (load (resolvePath dir fp)).find? (fun e => e.name == uname) <;>
        · dsimp only
          apply ih
          first
          | exact h
          | (rw [noCirc_append, h]; rfl)

theorem resolveUsesInRulesM_no_circ (load : String → List ExportBlock)
    (registry : List (String × ExportBlock)) (dir : String) :
    ∀ (f : Nat) (rules : List StyleRule) (ws : List Warning) (deps : List String)
      (out : List StyleRule × List Warning × List String),
      noCirc ws = true →
      resolveUsesInRulesM load registry dir f rules [] ws deps = some out →
      noCirc out.2.1 = true := by
  intro f
  induction f with
  | zero => intro rules ws deps out _ hout; exact absurd hout (by simp [resolveUsesInRulesM])
  | succ f ih =>
    intro rules ws deps out hws hout
    cases rules with
    | nil =>
      rw [resolveUsesInRulesM] at hout
      cases hout
      exact hws
    | cons r rest =>
      rw [resolveUsesInRulesM] at hout
      dsimp only at hout
      rcases hstep : inlineRuleUses load registry dir [] r.uses r ws deps with ⟨r1, ws1, deps1⟩
      have hws1 : noCirc ws1 = true := by
        have := inlineRuleUses_no_circ load registry dir r.uses r ws deps hws
        rw [hstep] at this
        exact this
      rw [hstep] at hout
      dsimp only at hout
      cases hrec1 : resolveUsesInRulesM load registry dir f r1.children [] ws1 deps1 with
      | none => rw [hrec1] at hout; cases hout
      | some o1 =>
        rcases o1 with ⟨ch', ws2, deps2⟩
        have hws2 : noCirc ws2 = true := ih r1.children ws1 deps1 (ch', ws2, deps2) hws1 hrec1
        rw [hrec1] at hout
        dsimp only at hout
        cases hrec2 : resolveUsesInRulesM load registry dir f rest [] ws2 deps2 with
        | none => rw [hrec2] at hout; cases hout
        | some o2 =>
          rcases o2 with ⟨rest', ws3, deps3⟩
          have hws3 : noCirc ws3 = true := ih rest ws2 deps2 (rest', ws3, deps3) hws2 hrec2
          rw [hrec2] at hout
          dsimp only at hout
          cases hout
          exact hws3

theorem inlineExportUses_no_circ (load : String → List ExportBlock) (dir : String)
    (expName : String) :
    ∀ (uses : List UseDirective) (reg : List (String × ExportBlock)) (ws : List Warning)
      (deps : List String),
      noCirc ws = true →
      noCirc (inlineExportUses load dir [] expName uses reg ws deps).2.1 = true := by
  intro uses
  induction uses with
  | nil => intro reg ws deps h; exact h
  | cons u rest ih =>
    intro reg ws deps h
    rw [inlineExportUses]
    rw [if_neg (by simp [List.contains])]
    rcases u with ⟨uname, _ | fp⟩
    · dsimp only
      cases hreg : registryGet reg uname <;>
        · dsimp only
          apply ih
          first
          | exact h
          | (rw [noCirc_append, h]; rfl)
    · dsimp only
      cases hload : (load (resolvePath dir fp)).find? (fun e => e.name == uname) <;>
        · dsimp only
          apply ih
          first
          | exact h
          | (rw [noCirc_append, h]; rfl)

theorem resolveUsesInExportM_no_circ (load : String → List ExportBlock) (dir : String)
    (f : Nat) (expName : String) (reg : List (String × ExportBlock)) (ws : List Warning)
    (deps : List String)
    (out : List (String × ExportBlock) × List Warning × List String)
    (hws : noCirc ws = true)
    (hout : resolveUsesInExportM load dir f expName reg [] ws deps = some out) :
    noCirc out.2.1 = true := by
  rw [resolveUsesInExportM] at hout
  cases hexp : registryGet reg expName with
  | none => rw [hexp] at hout; cases hout; exact hws
  | some exp =>
    rw [hexp] at hout
    dsimp only at hout
    rcases hstep : inlineExportUses load dir [] expName exp.uses reg ws deps with
      ⟨reg1, ws1, deps1⟩
    have hws1 : noCirc ws1 = true := by
      have := inlineExportUses_no_circ load dir expName exp.uses reg ws deps hws
      rw [hstep] at this
      exact this
    rw [hstep] at hout
    dsimp only at hout
    cases hexp1 : registryGet reg1 expName with
    | none => rw [hexp1] at hout; cases hout; exact hws1
    | some e1 =>
      rw [hexp1] at hout
      dsimp only at hout
      cases hrec : resolveUsesInRulesM load reg1 dir f e1.children [] ws1 deps1 with
      | none => rw [hrec] at hout; cases hout
      | some o1 =>
        rcases o1 with ⟨ch', ws2, deps2⟩
        have hws2 : noCirc ws2 = true :=
          resolveUsesInRulesM_no_circ load reg1 dir f e1.children ws1 deps1
            (ch', ws2, deps2) hws1 hrec
        rw [hrec] at hout
        dsimp only at hout
        cases hout
        exact hws2

theorem resolveAllExports_no_circ (load : String → List ExportBlock) (dir : String)
    (f : Nat) :
    ∀ (names : List String) (reg : List (String × ExportBlock)) (ws : List Warning)
      (deps : List String)
      (out : List (String × ExportBlock) × List Warning × List String),
      noCirc ws = true →
      resolveAllExports load dir f names reg ws deps = some out →
      noCirc out.2.1 = true := by
  intro names
  induction names with
  | nil => intro reg ws deps out hws hout; rw [resolveAllExports] at hout; cases hout; exact hws
  | cons n rest ih =>
    intro reg ws deps out hws hout
    rw [resolveAllExports] at hout
    cases hrec : resolveUsesInExportM load dir f n reg [] ws deps with
    | none => rw [hrec] at hout; cases hout
    | some o1 =>
      rcases o1 with ⟨reg', ws', deps'⟩
      have hws' : noCirc ws' = true :=
        resolveUsesInExportM_no_circ load dir f n reg ws deps (reg', ws', deps') hws hrec
      rw [hrec] at hout
      dsimp only at hout
      exact ih reg' ws' deps' out hws' hout

theorem buildRegistry_no_circ :
    ∀ (exps : List ExportBlock) (reg : List (String × ExportBlock)) (ws : List Warning),
      noCirc ws = true → noCirc (buildRegistry exps reg ws).2 = true := by
  intro exps
  induction exps with
  | nil => intro reg ws h; exact h
  | cons e rest ih =>
    intro reg ws h
    rw [buildRegistry]
    apply ih
    split
    · rw [noCirc_append, h]; rfl
    · exact h

theorem importNames_no_circ (fileExports : List ExportBlock) (fromPath : String) :
    ∀ (names : List String) (reg : List (String × ExportBlock)) (ws : List Warning),
      noCirc ws = true → noCirc (importNames fileExports fromPath names reg ws).2 = true := by
  intro names
  induction names with
  | nil => intro reg ws h; exact h
  | cons n rest ih =>
    intro reg ws h
    rw [importNames]
    cases hfind : fileExports.find? (fun e => e.name == n) with
    | none =>
      dsimp only
      apply ih
      rw [noCirc_append, h]; rfl
    | some exp => dsimp only; exact ih _ _ h

theorem applyImports_no_circ (load : String → List ExportBlock) (dir : String) :
    ∀ (imps : List ImportDirective) (reg : List (String × ExportBlock)) (ws : List Warning)
      (deps : List String),
      noCirc ws = true → noCirc (applyImports load dir imps reg ws deps).2.1 = true := by
  intro imps
  induction imps with
  | nil => intro reg ws deps h; exact h
  | cons imp rest ih =>
    intro reg ws deps h
    rw [applyImports]
    rcases hnames : importNames (load (resolvePath dir imp.fromPath)) imp.fromPath
        imp.names reg ws with ⟨reg', ws'⟩
    have hws' : noCirc ws' = true := by
      have := importNames_no_circ (load (resolvePath dir imp.fromPath)) imp.fromPath
        imp.names reg ws h
      rw [hnames] at this
      exact this
    exact ih reg' ws' _ hws'

/-- C1: contrary to the claim, no run of the resolution pass ever emits a
circular-use diagnostic: the "currently resolving" keys are removed before
any recursion, so the membership check can never fire.  First conjunct: on
the size-one cycle (`@export a` whose body uses `a`, used by a rule), the
pass terminates with zero diagnostics and silently duplicated classes.
Second conjunct: any terminating run, for every parse result and every
loadExports collaborator, produces a warning list without a single
circular-use diagnostic. -/
theorem circular_use_never_diagnosed :
    (resolveDirectivesM (fun _ => []) cycleInput "a.vue" 9 =
      some ([StyleRule.mk "&" ["x", "x"] [] [] []], [], [])) ∧
    (∀ (load : String → List ExportBlock) (result : ParseResultT) (path : String) (f : Nat)
       (out : List StyleRule × List Warning × List String),
      resolveDirectivesM load result path f = some out →
      noCirc out.2.1 = true) := by
  constructor
  · rfl
  · intro load result path f out hout
    rw [resolveDirectivesM] at hout
    rcases hreg : buildRegistry result.exports [] [] with ⟨reg0, ws0⟩
    have hws0 : noCirc ws0 = true := by
      have := buildRegistry_no_circ result.exports [] [] rfl
      rw [hreg] at this
      exact this
    rw [hreg] at hout
    dsimp only at hout
    rcases himp : applyImports load (dirnameOf path) result.imports reg0 ws0 [] with
      ⟨reg1, ws1, deps1⟩
    have hws1 : noCirc ws1 = true := by
      have := applyImports_no_circ load (dirnameOf path) result.imports reg0 ws0 [] hws0
      rw [himp] at this
      exact this
    rw [himp] at hout
    dsimp only at hout
    cases hall : resolveAllExports load (dirnameOf path) f (reg1.map (·.1)) reg1 ws1 deps1 with
    | none => rw [hall] at hout; cases hout
    | some o2 =>
      rcases o2 with ⟨reg2, ws2, deps2⟩
      have hws2 : noCirc ws2 = true :=
        resolveAllExports_no_circ load (dirnameOf path) f (reg1.map (·.1)) reg1 ws1 deps1
          (reg2, ws2, deps2) hws1 hall
      rw [hall] at hout
      dsimp only at hout
      cases hrules : resolveUsesInRulesM load reg2 (dirnameOf path) f result.rules [] ws2 deps2 with
      | none => rw [hrules] at hout; cases hout
      | some o3 =>
        rcases o3 with ⟨rules', ws3, deps3⟩
        have hws3 : noCirc ws3 = true :=
          resolveUsesInRulesM_no_circ load reg2 (dirnameOf path) f result.rules ws2 deps2
            (rules', ws3, deps3) hws2 hrules
        rw [hrules] at hout
        dsimp only at hout
        cases hout
        exact hws3

/-- C1 witness: the invariant applied to the concrete cycle run. -/
theorem circular_use_never_diagnosed_witness :
    noCirc ([] : List Warning) = true :=
  circular_use_never_diagnosed.2 (fun _ => []) cycleInput "a.vue" 9
    ([StyleRule.mk "&" ["x", "x"] [] [] []], [], [])
    circular_use_never_diagnosed.1

/-- C6 witness: the theorem applied at a concrete node and attribute. -/
theorem attribute_selector_semantics_witness :
    matchesCompound 2 (Cursor.mk (.mk "a" none [] [("x", .boolT)] none []) none)
      [.attr "x" (some "=") (some "y")] = false :=
  (attribute_selector_semantics 0 _ "x" "y").2.2.2.2.2.2.2 "=" (by simp) rfl

-- ---------------------------------------------------------------------------
-- C7 helpers and theorem
-- ---------------------------------------------------------------------------

theorem looksLike_of_mem {text : List Char}
    (hm : (⟨trimCL text⟩ : String) ∈ AMBIGUOUS_TAG_CLASSES) :
    looksLikeSelector text = false := by
  simp only [AMBIGUOUS_TAG_CLASSES, List.mem_cons, List.not_mem_nil, or_false] at hm
  rcases hm with h|h|h|h|h|h|h|h|h|h|h|h|h|h|h <;>
    (have h' : trimCL text = String.data _ := congrArg String.data h) <;>
    simp only [looksLikeSelector, h'] <;> decide

theorem mem_of_looksLike {text : List Char}
    (h : looksLikeSelector text = false) :
    (⟨trimCL text⟩ : String) ∈ AMBIGUOUS_TAG_CLASSES := by
  simp only [looksLikeSelector] at h
  split at h
  · exact absurd h (by simp)
  · split at h
    · exact absurd h (by simp)
    · split at h
      · exact absurd h (by simp)
      · split at h
        · rename_i hc
          exact List.elem_iff.mp hc
        · exact absurd h (by simp)

/-- C7: a bare word from the ambiguous tag/class set is treated as a class:
`looksLikeSelector` rejects exactly the trimmed texts that are in
`AMBIGUOUS_TAG_CLASSES`; when the text before a brace fails the selector
test, `splitClassesAndSelector` returns the whole text as class content and
an empty selector; otherwise the selector part is exactly the candidate
computed from the final lines; concretely, `flex` before `{` becomes a class
of the enclosing rule and the brace opens a scope with an empty selector,
while `button` becomes the nested rule's selector. -/
theorem ambiguous_tag_class_words :
    (∀ text : List Char, looksLikeSelector text = false ↔
        (⟨trimCL text⟩ : String) ∈ AMBIGUOUS_TAG_CLASSES) ∧
    (∀ text : List Char, looksLikeSelector (selectorCandidate text) = false →
        splitClassesAndSelector text = (text, [])) ∧
    (∀ text : List Char, looksLikeSelector (selectorCandidate text) = true →
        (splitClassesAndSelector text).2 = selectorCandidate text) ∧
    (parseStyleBlockW "& \x7b\n  flex\n  \x7b text-sm \x7d\n\x7d" =
      some (⟨[.mk "&" ["flex"] [] [] [.mk "" ["text-sm"] [] [] []]], [], []⟩, [])) ∧
    (parseStyleBlockW "& \x7b\n  button\n  \x7b text-sm \x7d\n\x7d" =
      some (⟨[.mk "&" [] [] [] [.mk "button" ["text-sm"] [] [] []]], [], []⟩, [])) := by
  refine ⟨fun text => ⟨fun h => mem_of_looksLike h, fun h => looksLike_of_mem h⟩,
    ?_, ?_, by rfl, by rfl⟩
  · intro text h
    unfold selectorCandidate at h
    unfold splitClassesAndSelector
    dsimp only at h ⊢
    rcases hix : lastNonEmptyIdx (splitLines text) with _ | k
    · rw [hix] at h
      dsimp only at h
      exact absurd h (by decide)
    · rw [hix] at h
      dsimp only at h ⊢
      simp [h]
  · intro text h
    unfold selectorCandidate at h ⊢
    unfold splitClassesAndSelector
    dsimp only at h ⊢
    rcases hix : lastNonEmptyIdx (splitLines text) with _ | k
    · rfl
    · rw [hix] at h
      dsimp only at h ⊢
      simp [h]

theorem ambiguous_tag_class_words_witness :
    splitClassesAndSelector "px-2\nflex".data = ("px-2\nflex".data, []) ∧
    (splitClassesAndSelector "px-2\nbutton".data).2 =
      selectorCandidate "px-2\nbutton".data :=
  ⟨ambiguous_tag_class_words.2.1 "px-2\nflex".data (by decide),
   ambiguous_tag_class_words.2.2.1 "px-2\nbutton".data (by decide)⟩

-- ---------------------------------------------------------------------------
-- C5: totality of the parser
-- ---------------------------------------------------------------------------

theorem findSubAux_le (pat : List Char) :
    ∀ (l : List Char) (k j : Nat), findSubAux pat l k = some j → k ≤ j := by
  intro l
  induction l with
  | nil =>
    intro k j h
    simp only [findSubAux] at h
    split at h
    · simp only [Option.some.injEq] at h
      omega
    · exact Option.noConfusion h
  | cons c rest ih =>
    intro k j h
    simp only [findSubAux] at h
    split at h
    · simp only [Option.some.injEq] at h
      omega
    · have := ih (k + 1) j h
      omega

theorem indexOfFrom_le {src pat : List Char} {p j : Nat}
    (h : indexOfFrom src pat p = some j) : p ≤ j :=
  findSubAux_le pat (src.drop p) p j h

set_option maxHeartbeats 1600000 in
theorem findTopAux_bounds (char : Char) :
    ∀ (n : Nat) (l : List Char), l.length ≤ n →
      ∀ i prev d b s cm j, findTopAux char l i prev d b s cm = some j →
        i ≤ j ∧ j < i + l.length := by
  intro n
  induction n with
  | zero =>
    rintro (_ | ⟨c, rest⟩) hl i prev d b s cm j h
    · exact Option.noConfusion h
    · simp at hl
  | succ n ih =>
    rintro (_ | ⟨c, rest⟩) hl i prev d b s cm j h
    · exact Option.noConfusion h
    · cases rest with
      | nil =>
        rw [findTopAux.eq_def] at h
        dsimp only at h
        repeat' split at h
        all_goals
          first
          | exact Option.noConfusion h
          | (simp only [Option.some.injEq] at h
             simp only [List.length_cons]
             omega)
      | cons c2 rest2 =>
        have h1 : rest2.length ≤ n := by
          simp only [List.length_cons] at hl
          omega
        have h2 : (c2 :: rest2).length ≤ n := by
          simp only [List.length_cons] at hl ⊢
          omega
        rw [findTopAux.eq_def] at h
        dsimp only at h
        repeat' split at h
        all_goals
          first
          | exact Option.noConfusion h
          | (simp only [Option.some.injEq] at h
             simp only [List.length_cons]
             omega)
          | (have hb := ih (c2 :: rest2) h2 _ _ _ _ _ _ _ h
             simp only [List.length_cons] at hb ⊢
             omega)
          | (have hb := ih rest2 h1 _ _ _ _ _ _ _ h
             simp only [List.length_cons] at hb ⊢
             omega)

theorem findTopLevelChar_bounds {src : List Char} {start e : Nat} {char : Char} {j : Nat}
    (h : findTopLevelChar src start e char = some j) : start ≤ j ∧ j < e := by
  unfold findTopLevelChar at h
  have hb := findTopAux_bounds char (seg src start e).length (seg src start e)
    (le_refl _) _ _ _ _ _ _ _ h
  have hlen : (seg src start e).length ≤ e - start := List.length_take_le _ _
  omega

set_option maxHeartbeats 1600000 in
theorem findMatchAux_bounds :
    ∀ (n : Nat) (l : List Char), l.length ≤ n →
      ∀ i prev d b s cm j, findMatchAux l i prev d b s cm = some j →
        i ≤ j ∧ j < i + l.length := by
  intro n
  induction n with
  | zero =>
    rintro (_ | ⟨c, rest⟩) hl i prev d b s cm j h
    · exact Option.noConfusion h
    · simp at hl
  | succ n ih =>
    rintro (_ | ⟨c, rest⟩) hl i prev d b s cm j h
    · exact Option.noConfusion h
    · cases rest with
      | nil =>
        rw [findMatchAux.eq_def] at h
        dsimp only at h
        repeat' split at h
        all_goals
          first
          | exact Option.noConfusion h
          | (simp only [Option.some.injEq] at h
             simp only [List.length_cons]
             omega)
      | cons c2 rest2 =>
        have h1 : rest2.length ≤ n := by
          simp only [List.length_cons] at hl
          omega
        have h2 : (c2 :: rest2).length ≤ n := by
          simp only [List.length_cons] at hl ⊢
          omega
        rw [findMatchAux.eq_def] at h
        dsimp only at h
        repeat' split at h
        all_goals
          first
          | exact Option.noConfusion h
          | (simp only [Option.some.injEq] at h
             simp only [List.length_cons]
             omega)
          | (have hb := ih (c2 :: rest2) h2 _ _ _ _ _ _ _ h
             simp only [List.length_cons] at hb ⊢
             omega)
          | (have hb := ih rest2 h1 _ _ _ _ _ _ _ h
             simp only [List.length_cons] at hb ⊢
             omega)

theorem findMatchingBrace_bounds {src : List Char} {openPos : Nat}
    (hop : openPos < src.length) :
    openPos + 1 ≤ findMatchingBrace src openPos ∧
      findMatchingBrace src openPos ≤ src.length := by
  unfold findMatchingBrace
  rcases hm : findMatchAux (src.drop (openPos + 1)) (openPos + 1)
      (charAt src openPos) 1 0 none false with _ | j
  · simp only [Option.getD_none]
    omega
  · simp only [Option.getD_some]
    have hb := findMatchAux_bounds (src.drop (openPos + 1)).length _
      (le_refl _) _ _ _ _ _ _ _ hm
    have hlen : (src.drop (openPos + 1)).length = src.length - (openPos + 1) :=
      List.length_drop _ _
    omega

theorem skipWhitespaceAndComments_le (src : List Char) (pos : Nat) :
    pos ≤ skipWhitespaceAndComments src pos :=
  Nat.le_add_right _ _

theorem parseBodyF_total (src : List Char) :
    ∀ (f : Nat) (pos e : Nat) (acc : BodyContent) (ws : List Warning),
      e ≤ src.length →
      src.length + 2 ≤ f + min pos (src.length + 1) →
      (parseBodyF src f pos e acc ws).isSome = true := by
  intro f
  induction f with
  | zero =>
    intro pos e acc ws he hf
    exfalso
    have := Nat.min_le_right pos (src.length + 1)
    omega
  | succ f ih =>
    intro pos e acc ws he hf
    rw [parseBodyF]
    by_cases hpe : pos < e
    · rw [if_pos hpe]
      rcases hft : findTopLevelChar src pos e lbrace with _ | bracePos
      · rcases extractContent (seg src pos e) with ⟨cls, decls, uses, ws2⟩
        simp
      · have hb1 := findTopLevelChar_bounds hft
        have hbL : bracePos < src.length := lt_of_lt_of_le hb1.2 he
        have hm1 := findMatchingBrace_bounds hbL
        rcases splitClassesAndSelector (seg src pos bracePos) with ⟨classText, selector⟩
        rcases extractContent classText with ⟨cls, decls, uses, ws2⟩
        dsimp only
        split
        · exact ih _ _ _ _ he (by omega)
        · have hin : (parseBodyF src f (bracePos + 1) (findMatchingBrace src bracePos)
              emptyBody []).isSome = true :=
            ih _ _ _ _ hm1.2 (by omega)
          rcases hrec : parseBodyF src f (bracePos + 1) (findMatchingBrace src bracePos)
              emptyBody [] with _ | ⟨inner, wsInner⟩
          · rw [hrec] at hin
            exact Bool.noConfusion hin
          · dsimp only
            exact ih _ _ _ _ he (by omega)
    · rw [if_neg hpe]
      simp

theorem parseRulesF_total (src : List Char) :
    ∀ (f : Nat) (pos e : Nat) (rules : List StyleRule) (exps : List ExportBlock)
      (imps : List ImportDirective) (ws : List Warning),
      e ≤ src.length →
      src.length + 2 ≤ f + min pos (src.length + 1) →
      (parseRulesF src f pos e rules exps imps ws).isSome = true := by
  intro f
  induction f with
  | zero =>
    intro pos e rules exps imps ws he hf
    exfalso
    have := Nat.min_le_right pos (src.length + 1)
    omega
  | succ f ih =>
    intro pos e rules exps imps ws he hf
    rw [parseRulesF]
    have hp1 : pos ≤ skipWhitespaceAndComments src pos :=
      skipWhitespaceAndComments_le src pos
    by_cases hpe : skipWhitespaceAndComments src pos < e
    · rw [if_pos hpe]
      split
      · rcases hio : indexOfFrom src ['\n'] (skipWhitespaceAndComments src pos)
            with _ | le
        · dsimp only
          split
          · exact ih _ _ _ _ _ _ he (by omega)
          · exact ih _ _ _ _ _ _ he (by omega)
        · have hle := indexOfFrom_le hio
          have hmin1 : Nat.min le e ≤ e := Nat.min_le_right le e
          have hmin2 : skipWhitespaceAndComments src pos ≤ Nat.min le e :=
            Nat.le_min.mpr ⟨hle, le_of_lt hpe⟩
          dsimp only
          split
          · exact ih _ _ _ _ _ _ he (by omega)
          · exact ih _ _ _ _ _ _ he (by omega)
      · rcases hft : findTopLevelChar src (skipWhitespaceAndComments src pos) e lbrace
            with _ | bracePos
        · simp
        · have hb1 := findTopLevelChar_bounds hft
          have hbL : bracePos < src.length := lt_of_lt_of_le hb1.2 he
          have hm1 := findMatchingBrace_bounds hbL
          dsimp only
          split
          · exact ih _ _ _ _ _ _ he (by omega)
          · have hin : (parseBodyF src f (bracePos + 1) (findMatchingBrace src bracePos)
                emptyBody []).isSome = true :=
              parseBodyF_total src f _ _ _ _ hm1.2 (by omega)
            rcases hrec : parseBodyF src f (bracePos + 1) (findMatchingBrace src bracePos)
                emptyBody [] with _ | ⟨body, wsB⟩
            · rw [hrec] at hin
              exact Bool.noConfusion hin
            · dsimp only
              split
              · exact ih _ _ _ _ _ _ he (by omega)
              · exact ih _ _ _ _ _ _ he (by omega)
    · rw [if_neg hpe]
      simp

/-- C5: the parser is a total function of its input: `parseStyleBlock` always
returns a result for every input string; on malformed content it degrades to
a best-effort result plus a diagnostic: an unclosed brace still yields the
parsed rule plus an `unclosedBrace` warning, a malformed `@import` line or
`@use` directive yields `malformedImport`/`malformedUse`, and an unsupported
at-rule yields `unsupportedAtRule`, in each case with the rest of the input
still parsed. -/
theorem parse_total_best_effort :
    (∀ text : String, (parseStyleBlockW text).isSome = true) ∧
    (parseStyleBlockW "& \x7b" =
      some (⟨[.mk "&" [] [] [] []], [], []⟩, [.unclosedBrace])) ∧
    ((parseStyleBlockW "@import garbage\n& \x7b flex2 \x7d").map (fun r => r.2) =
      some [.malformedImport]) ∧
    ((parseStyleBlockW "& \x7b\n@use buttons from not-quoted\n\x7d").map (fun r => r.2) =
      some [.malformedUse]) ∧
    ((parseStyleBlockW "@media screen \x7b a \x7b flex2 \x7d \x7d").map (fun r => r.2) =
      some [.unsupportedAtRule]) := by
  refine ⟨?_, by rfl, by rfl, by rfl, by rfl⟩
  intro text
  unfold parseStyleBlockW
  have htot : (parseRulesF text.data (parseFuel text.data) 0 text.data.length
      [] [] [] []).isSome = true := by
    apply parseRulesF_total text.data _ _ _ _ _ _ _ (le_refl _)
    unfold parseFuel
    omega
  rcases hr : parseRulesF text.data (parseFuel text.data) 0 text.data.length [] [] [] []
      with _ | ⟨rules, exps, imps, ws⟩
  · rw [hr] at htot
    exact Bool.noConfusion htot
  · simp

end FTailwind
